import Mathlib

/-!
STBA: the bundle-adjustment problem class `BAProblem`.

A shallow embedding of `include/STBA/baproblem.h`.  Scalars (`DT` in the C++
code, a `double`) are an arbitrary type here; the algebraic results take it to
be a field, which is the exact-arithmetic reading of the program.
-/

namespace STBA

/-! ## Fixed-size vectors and matrices (the typedefs of utility.h) -/

abbrev Vec2 (DT : Type) := Fin 2 → DT
abbrev Vec3 (DT : Type) := Fin 3 → DT
abbrev Vec6 (DT : Type) := Fin 6 → DT
abbrev Mat23 (DT : Type) := Matrix (Fin 2) (Fin 3) DT
abbrev Mat26 (DT : Type) := Matrix (Fin 2) (Fin 6) DT
abbrev Mat3 (DT : Type) := Matrix (Fin 3) (Fin 3) DT
abbrev Mat6 (DT : Type) := Matrix (Fin 6) (Fin 6) DT
abbrev Mat63 (DT : Type) := Matrix (Fin 6) (Fin 3) DT

/-! ## enum LinearSolverType -/

/-- The unscoped enumeration `LinearSolverType`: a value of the enumeration is
the integer it carries.  The four enumerators are the constants below. -/
structure LinearSolverType where
  val : Int
deriving DecidableEq, Repr

def SPARSE : LinearSolverType := ⟨0⟩
def DENSE : LinearSolverType := ⟨1⟩
def ITERATIVE : LinearSolverType := ⟨2⟩
def ADAPTIVE : LinearSolverType := ⟨3⟩

/-- The conversion `static_cast<LinearSolverType>(t)` of an `int`: the integer
is kept as the value of the enumeration, with no check against the
enumerators. -/
def static_cast_LinearSolverType (t : Int) : LinearSolverType := ⟨t⟩

/-! ## Indexed data blocks (datablock.h) -/

/-- Modelled from the spec: class `PoseBlock` of datablock.h, which is not part
of the source tree.  Index-addressable storage for poses (axis-angle rotation
and translation) with a count that only `Create` changes. -/
structure PoseBlock (DT : Type) where
  pose_num_ : Nat
  poses_ : Nat → Vec3 DT × Vec3 DT

/-- Modelled from the spec: class `PointBlock` of datablock.h (not in the source
tree).  Index-addressable storage for 3D points, position and colour. -/
structure PointBlock (DT : Type) where
  point_num_ : Nat
  points_ : Nat → Vec3 DT
  colors_ : Nat → Vec3 DT

/-- Modelled from the spec: class `IntrinsicBlock` of datablock.h (not in the
source tree).  Index-addressable storage of the 6 parameters of every intrinsic
group. -/
structure IntrinsicBlock (DT : Type) where
  group_num_ : Nat
  intrinsics_ : Nat → Vec6 DT

/-- Modelled from the spec: class `ProjectionBlock` of datablock.h (not in the
source tree).  Every projection is a 2D observation that references exactly one
pose and one point; `indexes_ k` is the pair (pose index, point index) of
projection `k`. -/
structure ProjectionBlock (DT : Type) where
  projection_num_ : Nat
  projections_ : Nat → Vec2 DT
  indexes_ : Nat → Nat × Nat

namespace PoseBlock
variable {DT : Type}

def PoseNum (b : PoseBlock DT) : Nat := b.pose_num_

/-- Modelled from the spec: get by index; an invalid index is a structural
error (no result). -/
def GetPose (b : PoseBlock DT) (idx : Nat) : Option (Vec3 DT × Vec3 DT) :=
  if idx < b.pose_num_ then some (b.poses_ idx) else none

/-- Modelled from the spec: set by index; an invalid index fails fast (no
successor block). -/
def SetPose (b : PoseBlock DT) (idx : Nat) (angle_axis translation : Vec3 DT) :
    Option (PoseBlock DT) :=
  if idx < b.pose_num_ then
    some { b with poses_ := Function.update b.poses_ idx (angle_axis, translation) }
  else none

end PoseBlock

namespace PointBlock
variable {DT : Type}

def PointNum (b : PointBlock DT) : Nat := b.point_num_

/-- Modelled from the spec: get a point position by index. -/
def GetPoint (b : PointBlock DT) (idx : Nat) : Option (Vec3 DT) :=
  if idx < b.point_num_ then some (b.points_ idx) else none

/-- Modelled from the spec: set a point position by index. -/
def SetPoint (b : PointBlock DT) (idx : Nat) (point : Vec3 DT) : Option (PointBlock DT) :=
  if idx < b.point_num_ then
    some { b with points_ := Function.update b.points_ idx point }
  else none

/-- Modelled from the spec: get a point colour by index. -/
def GetColor (b : PointBlock DT) (idx : Nat) : Option (Vec3 DT) :=
  if idx < b.point_num_ then some (b.colors_ idx) else none

/-- Modelled from the spec: set a point colour by index. -/
def SetColor (b : PointBlock DT) (idx : Nat) (color : Vec3 DT) : Option (PointBlock DT) :=
  if idx < b.point_num_ then
    some { b with colors_ := Function.update b.colors_ idx color }
  else none

end PointBlock

namespace IntrinsicBlock
variable {DT : Type}

def GroupNum (b : IntrinsicBlock DT) : Nat := b.group_num_

/-- Modelled from the spec: get the intrinsic vector of a group by index. -/
def GetIntrinsic (b : IntrinsicBlock DT) (idx : Nat) : Option (Vec6 DT) :=
  if idx < b.group_num_ then some (b.intrinsics_ idx) else none

/-- Modelled from the spec: set the intrinsic vector of a group by index. -/
def SetIntrinsic (b : IntrinsicBlock DT) (idx : Nat) (intrinsic : Vec6 DT) :
    Option (IntrinsicBlock DT) :=
  if idx < b.group_num_ then
    some { b with intrinsics_ := Function.update b.intrinsics_ idx intrinsic }
  else none

end IntrinsicBlock

namespace ProjectionBlock
variable {DT : Type}

def ProjectionNum (b : ProjectionBlock DT) : Nat := b.projection_num_

/-- Modelled from the spec: the pose that projection `k` references. -/
def PoseIndex (b : ProjectionBlock DT) (k : Nat) : Nat := (b.indexes_ k).1

/-- Modelled from the spec: the point that projection `k` references. -/
def PointIndex (b : ProjectionBlock DT) (k : Nat) : Nat := (b.indexes_ k).2

end ProjectionBlock

/-! ## class BAProblem -/

/-- The data members of `BAProblem`, in the order of the header.  The
`unordered_map`s are finite maps, a key without an entry having no value; the raw `DT *` buffers are
addressed by pose, point or projection index and hold one block per index. -/
structure BAProblem (DT : Type) where
  pose_block_ : PoseBlock DT
  point_block_ : PointBlock DT
  intrinsic_block_ : IntrinsicBlock DT
  projection_block_ : ProjectionBlock DT
  pose_projection_map_ : Nat → Nat → Option Nat
  point_projection_map_ : Nat → Nat → Option Nat
  common_point_map_ : Nat → Nat → List Nat
  pose_group_map_ : Nat → Option Nat
  group_pose_map_ : Nat → List Nat
  group_index_map_ : Nat → Option Nat
  pose_index_map_ : Nat → Option Nat
  point_index_map_ : Nat → Option Nat
  loss_function_ : Nat
  residual_ : Nat → Vec2 DT
  pose_jacobian_ : Nat → Mat26 DT
  point_jacobian_ : Nat → Mat23 DT
  pose_jacobian_square_ : Nat → Mat6 DT
  point_jacobian_square_ : Nat → Mat3 DT
  pose_point_jacobian_product_ : Nat → Mat63 DT
  pose_gradient_ : Nat → Vec6 DT
  point_gradient_ : Nat → Vec3 DT
  Ec_Cinv_w_ : Nat → Vec6 DT
  debug_folder_ : String
  iter_ : Nat
  step_accept_ : Bool
  stream_ : String
  time_ : Nat
  max_degree_ : Nat
  thread_num_ : Nat
  linear_solver_type_ : LinearSolverType

namespace BAProblem
variable {DT : Type}

/-! ### The inline members of the header -/

def PoseNum (self : BAProblem DT) : Nat := self.pose_block_.PoseNum

def GetPose (self : BAProblem DT) (idx : Nat) : Option (Vec3 DT × Vec3 DT) :=
  self.pose_block_.GetPose idx

def SetPose (self : BAProblem DT) (idx : Nat) (angle_axis translation : Vec3 DT) :
    Option (BAProblem DT) :=
  (self.pose_block_.SetPose idx angle_axis translation).map
    fun b => { self with pose_block_ := b }

def PointNum (self : BAProblem DT) : Nat := self.point_block_.PointNum

def GetPoint (self : BAProblem DT) (idx : Nat) : Option (Vec3 DT) :=
  self.point_block_.GetPoint idx

def SetPoint (self : BAProblem DT) (idx : Nat) (point : Vec3 DT) : Option (BAProblem DT) :=
  (self.point_block_.SetPoint idx point).map fun b => { self with point_block_ := b }

def GetColor (self : BAProblem DT) (idx : Nat) : Option (Vec3 DT) :=
  self.point_block_.GetColor idx

def SetColor (self : BAProblem DT) (idx : Nat) (color : Vec3 DT) : Option (BAProblem DT) :=
  (self.point_block_.SetColor idx color).map fun b => { self with point_block_ := b }

def GroupNum (self : BAProblem DT) : Nat := self.intrinsic_block_.GroupNum

def GetIntrinsic (self : BAProblem DT) (idx : Nat) : Option (Vec6 DT) :=
  self.intrinsic_block_.GetIntrinsic idx

/-- Modelled from the spec: `GetPoseGroup` is declared in the header and defined
in baproblem.cpp, which is not in the source tree.  Each pose maps to exactly
one group, recorded in `pose_group_map_`; a pose without an entry is a
structural error (no result). -/
def GetPoseGroup (self : BAProblem DT) (pose_index : Nat) : Option Nat :=
  self.pose_group_map_ pose_index

def GetPoseIntrinsic (self : BAProblem DT) (pose_index : Nat) : Option (Vec6 DT) :=
  (self.GetPoseGroup pose_index).bind fun group_index => self.GetIntrinsic group_index

def SetIntrinsic (self : BAProblem DT) (idx : Nat) (intrinsic : Vec6 DT) :
    Option (BAProblem DT) :=
  (self.intrinsic_block_.SetIntrinsic idx intrinsic).map
    fun b => { self with intrinsic_block_ := b }

def ProjectionNum (self : BAProblem DT) : Nat := self.projection_block_.ProjectionNum

def SetDebugFolder (self : BAProblem DT) (val : String) : BAProblem DT :=
  { self with debug_folder_ := val }

/-- The const member `GetDebugFolder`: the returned string, paired with the
problem the call leaves behind (the receiver itself). -/
def GetDebugFolder (self : BAProblem DT) : String × BAProblem DT :=
  (self.debug_folder_, self)

def SetLinearSolveType (self : BAProblem DT) (t : Int) : BAProblem DT :=
  { self with linear_solver_type_ := static_cast_LinearSolverType t }

/-! ### Accessors of the per-iteration buffers

The accessors are declared in the header; their bodies (baproblem.cpp) are not
in the source tree. -/

section Buffers
variable [Field DT]

/-- Modelled from the spec: `GetProjectionIndex` (body not in the source tree),
the pose-point-projection lookup of the association maps. -/
def GetProjectionIndex (self : BAProblem DT) (pose_index point_index : Nat) : Option Nat :=
  self.pose_projection_map_ pose_index point_index

/-- Modelled from the spec: `GetPoseJacobian` (body not in the source tree), the
2x6 pose Jacobian of a projection. -/
def GetPoseJacobian (self : BAProblem DT) (proj_index : Nat) : Mat26 DT :=
  self.pose_jacobian_ proj_index

/-- Modelled from the spec: `GetPointJacobian` (body not in the source tree),
the 2x3 point Jacobian of a projection. -/
def GetPointJacobian (self : BAProblem DT) (proj_index : Nat) : Mat23 DT :=
  self.point_jacobian_ proj_index

/-- Modelled from the spec: `GetJcJc` (body not in the source tree), the 6x6
block of a pose. -/
def GetJcJc (self : BAProblem DT) (pose_index : Nat) : Mat6 DT :=
  self.pose_jacobian_square_ pose_index

/-- Modelled from the spec: `IncreJcJc` (body not in the source tree), additive
accumulation into the block of a pose. -/
def IncreJcJc (self : BAProblem DT) (pose_index : Nat) (m : Mat6 DT) : BAProblem DT :=
  { self with pose_jacobian_square_ :=
      (Function.update self.pose_jacobian_square_ pose_index
        (self.pose_jacobian_square_ pose_index + m)) }

/-- Modelled from the spec: `ClearJcJc` (body not in the source tree). -/
def ClearJcJc (self : BAProblem DT) : BAProblem DT :=
  { self with pose_jacobian_square_ := fun _ => 0 }

/-- Modelled from the spec: `GetJpJp` (body not in the source tree), the 3x3
block of a point. -/
def GetJpJp (self : BAProblem DT) (point_index : Nat) : Mat3 DT :=
  self.point_jacobian_square_ point_index

/-- Modelled from the spec: `IncreJpJp` (body not in the source tree), additive
accumulation into the block of a point. -/
def IncreJpJp (self : BAProblem DT) (point_index : Nat) (m : Mat3 DT) : BAProblem DT :=
  { self with point_jacobian_square_ :=
      (Function.update self.point_jacobian_square_ point_index
        (self.point_jacobian_square_ point_index + m)) }

/-- Modelled from the spec: `ClearJpJp` (body not in the source tree). -/
def ClearJpJp (self : BAProblem DT) : BAProblem DT :=
  { self with point_jacobian_square_ := fun _ => 0 }

/-- Modelled from the spec: `GetJcJp(size_t, Mat63 &)` (body not in the source
tree), the 6x3 cross block of a projection. -/
def GetJcJp (self : BAProblem DT) (proj_index : Nat) : Mat63 DT :=
  self.pose_point_jacobian_product_ proj_index

/-- Modelled from the spec: `GetJcJp(size_t, size_t, Mat63 &)` (body not in the
source tree), the cross block of a pose-point pair, found through the
projection that joins them; no result when the pose does not observe the
point. -/
def GetJcJp_pair (self : BAProblem DT) (pose_index point_index : Nat) : Option (Mat63 DT) :=
  (self.GetProjectionIndex pose_index point_index).map self.GetJcJp

/-- Modelled from the spec: `SetJcJp(size_t, Mat63 const &)` (body not in the
source tree), overwriting the cross block of a projection. -/
def SetJcJp (self : BAProblem DT) (proj_index : Nat) (m : Mat63 DT) : BAProblem DT :=
  { self with pose_point_jacobian_product_ :=
      Function.update self.pose_point_jacobian_product_ proj_index m }

/-- Modelled from the spec: `ClearJcJp` (body not in the source tree). -/
def ClearJcJp (self : BAProblem DT) : BAProblem DT :=
  { self with pose_point_jacobian_product_ := fun _ => 0 }

/-- Modelled from the spec: `GetJce` (body not in the source tree), the pose
gradient Jc^T e. -/
def GetJce (self : BAProblem DT) (pose_index : Nat) : Vec6 DT :=
  self.pose_gradient_ pose_index

/-- Modelled from the spec: `GetJpe` (body not in the source tree), the point
gradient Jp^T e. -/
def GetJpe (self : BAProblem DT) (point_index : Nat) : Vec3 DT :=
  self.point_gradient_ point_index

/-- Modelled from the spec: `GetEcw` (body not in the source tree), reading the
buffer `Ec_Cinv_w_`. -/
def GetEcw (self : BAProblem DT) (pose_index : Nat) : Vec6 DT :=
  self.Ec_Cinv_w_ pose_index

/-- Modelled from the spec: `SetECw` (body not in the source tree), writing the
buffer `Ec_Cinv_w_`. -/
def SetECw (self : BAProblem DT) (pose_index : Nat) (v : Vec6 DT) : BAProblem DT :=
  { self with Ec_Cinv_w_ := Function.update self.Ec_Cinv_w_ pose_index v }

/-! ### Normal-equation accumulator (spec 4.2) -/

/-- Modelled from the spec: `EvaluateJcJc()` (body not in the source tree).  For
each projection the outer product Jc^T Jc is accumulated additively into the
block of the owning pose. -/
def EvaluateJcJc (self : BAProblem DT) : BAProblem DT :=
  (List.range self.ProjectionNum).foldl
    (fun Q k => Q.IncreJcJc (Q.projection_block_.PoseIndex k)
      ((Q.GetPoseJacobian k).transpose * Q.GetPoseJacobian k))
    self

/-- Modelled from the spec: `EvaluateJpJp()` (body not in the source tree).  For
each projection the outer product Jp^T Jp is accumulated additively into the
block of the owning point. -/
def EvaluateJpJp (self : BAProblem DT) : BAProblem DT :=
  (List.range self.ProjectionNum).foldl
    (fun Q k => Q.IncreJpJp (Q.projection_block_.PointIndex k)
      ((Q.GetPointJacobian k).transpose * Q.GetPointJacobian k))
    self

/-- Modelled from the spec: `EvaluateJcJp(size_t proj_index, Mat63 &)` (body not
in the source tree), the cross product Jc^T Jp of one projection. -/
def EvaluateJcJp_proj (self : BAProblem DT) (proj_index : Nat) : Mat63 DT :=
  (self.GetPoseJacobian proj_index).transpose * self.GetPointJacobian proj_index

/-- Modelled from the spec: `EvaluateJcJp()` (body not in the source tree).  The
cross product is stored per projection, not summed. -/
def EvaluateJcJp (self : BAProblem DT) : BAProblem DT :=
  (List.range self.ProjectionNum).foldl
    (fun Q k => Q.SetJcJp k (Q.EvaluateJcJp_proj k))
    self

/-- Modelled from the spec: the accumulation pass of one iteration.  The
per-iteration blocks are cleared and rebuilt: `ClearJcJc`, `ClearJpJp`,
`ClearJcJp`, then `EvaluateJcJc`, `EvaluateJpJp`, `EvaluateJcJp`. -/
def AccumulationPass (self : BAProblem DT) : BAProblem DT :=
  self.ClearJcJc.ClearJpJp.ClearJcJp.EvaluateJcJc.EvaluateJpJp.EvaluateJcJp

/-- Modelled from the spec: `SetPoseDiagonal` (body not in the source tree), by
which a damping term is put on the diagonal of the pose blocks before
elimination: the diagonal of the block of every pose is overwritten, entry
`6 i + a` of `diagonal` going to parameter `a` of pose `i`. -/
def SetPoseDiagonal (self : BAProblem DT) (diagonal : Nat → DT) : BAProblem DT :=
  { self with pose_jacobian_square_ := (fun i =>
      if i < self.PoseNum then
        Matrix.of fun a b =>
          if a = b then diagonal (6 * i + a.val) else self.pose_jacobian_square_ i a b
      else self.pose_jacobian_square_ i) }

/-- Modelled from the spec: `SetPointDiagonal` (body not in the source tree):
the diagonal of the block of every point is overwritten, entry `3 p + c` of
`diagonal` going to coordinate `c` of point `p`. -/
def SetPointDiagonal (self : BAProblem DT) (diagonal : Nat → DT) : BAProblem DT :=
  { self with point_jacobian_square_ := (fun p =>
      if p < self.PointNum then
        Matrix.of fun c d =>
          if c = d then diagonal (3 * p + c.val) else self.point_jacobian_square_ p c d
      else self.point_jacobian_square_ p) }

end Buffers

/-! ### Schur complement builder (spec 4.3) and solving (spec 4.4, 4.5) -/

section Schur
variable [Field DT] [DecidableEq DT]

/-- Modelled from the spec: the inverse of a 3x3 point block, in exact
arithmetic: the adjugate divided by the determinant. -/
def Inverse3 (m : Mat3 DT) : Mat3 DT := (m.det)⁻¹ • m.adjugate

/-- Modelled from the spec: `EvaluateEcw(size_t pose_index, Vec6 &)` (body not
in the source tree).  Spec 4.3 gives the reduced right-hand side of a pose as
Jc^T e (i) - sum_p Jc_i^T Jp (Jp^T Jp)^-1 Jp^T e (p).  The header documents the
member `Ec_Cinv_w_` as E C^-1 w with E = Jc^T Jp and w = -Jp^T e, which is the
sum of that right-hand side; this function evaluates the sum, over the points
the pose observes, and `EvaluateDeltaPose` adds Jc^T e (i) to it.  A point whose
block is singular is skipped. -/
def EvaluateEcw_pose (self : BAProblem DT) (pose_index : Nat) : Vec6 DT :=
  (List.range self.PointNum).foldl
    (fun Ecw point_index =>
      match self.GetJcJp_pair pose_index point_index with
      | none => Ecw
      | some Jcp =>
        if (self.GetJpJp point_index).det = 0 then Ecw
        else Ecw + (Jcp * Inverse3 (self.GetJpJp point_index)).mulVec (-(self.GetJpe point_index)))
    0

/-- Modelled from the spec: `EvaluateEcw()` (body not in the source tree): the
vector of every pose is evaluated and stored in `Ec_Cinv_w_`. -/
def EvaluateEcw (self : BAProblem DT) : BAProblem DT :=
  (List.range self.PoseNum).foldl (fun Q i => Q.SetECw i (Q.EvaluateEcw_pose i)) self

/-- Modelled from the spec: `GetCommonPoints` (body not in the source tree): the
points shared by two poses, that is, the points of which both poses have a
projection. -/
def GetCommonPoints (self : BAProblem DT) (pose_index1 pose_index2 : Nat) : List Nat :=
  (List.range self.PointNum).filter fun p =>
    (self.GetProjectionIndex pose_index1 p).isSome && (self.GetProjectionIndex pose_index2 p).isSome

/-- Modelled from the spec: `EvaluateEcEc(size_t, size_t, Mat6 &)` (body not in
the source tree).  For a pair of poses that share at least one point, the sum
over the shared points of Jc_i^T Jp (Jp^T Jp)^-1 Jp^T Jc_j; singular point
blocks are skipped.  The flag tells whether the poses share a point. -/
def EvaluateEcEc_pair (self : BAProblem DT) (pose_index1 pose_index2 : Nat) : Bool × Mat6 DT :=
  let points := self.GetCommonPoints pose_index1 pose_index2
  if points.isEmpty then (false, 0)
  else
    (true, points.foldl
      (fun EcEc point_index =>
        match self.GetJcJp_pair pose_index1 point_index,
              self.GetJcJp_pair pose_index2 point_index with
        | some Jc1Jp, some Jc2Jp =>
          if (self.GetJpJp point_index).det = 0 then EcEc
          else EcEc + Jc1Jp * Inverse3 (self.GetJpJp point_index) * Jc2Jp.transpose
        | _, _ => EcEc)
      0)

/-- Modelled from the spec: `EvaluateSchurComplement(MatX &)` (body not in the
source tree), the dense reduced camera matrix.  Block (i, j) is Jc^T Jc of pose
i on the diagonal, less the `EvaluateEcEc` block of the pair when the two poses
share a point.  Row (i, a) stands for row 6 i + a of the `MatX`. -/
def EvaluateSchurComplement (self : BAProblem DT) :
    Matrix (Fin self.PoseNum × Fin 6) (Fin self.PoseNum × Fin 6) DT :=
  Matrix.of fun ia jb =>
    let JcJc : Mat6 DT := if ia.1 = jb.1 then self.GetJcJc ia.1 else 0
    let EcEc := self.EvaluateEcEc_pair ia.1 jb.1
    (if EcEc.1 then JcJc - EcEc.2 else JcJc) ia.2 jb.2

/-- Modelled from the spec: `SolveLinearSystem` (body not in the source tree).
Given the matrix and the right-hand side, produce the solution or fail.  In
exact arithmetic every strategy returns the solution of the system; failure is
the singular matrix. -/
def SolveLinearSystem {ι : Type} [Fintype ι] [DecidableEq ι]
    (A : Matrix ι ι DT) (b : ι → DT) : Option (ι → DT) :=
  if A.det = 0 then none else some ((A.det)⁻¹ • A.adjugate.mulVec b)

/-- Modelled from the spec: `EvaluateDeltaPose` (body not in the source tree):
the reduced system is solved for the pose delta.  The reduced right-hand side
of pose i is Jc^T e (i) - sum_p Jc_i^T Jp (Jp^T Jp)^-1 Jp^T e (p), formed from
`GetJce` and the stored `GetEcw`. -/
def EvaluateDeltaPose (self : BAProblem DT) : Option (Fin self.PoseNum × Fin 6 → DT) :=
  SolveLinearSystem self.EvaluateSchurComplement
    (fun ia => self.GetJce ia.1 ia.2 + self.GetEcw ia.1 ia.2)

/-- Modelled from the spec: `EvaluateEDeltaPose` (body not in the source tree):
for a point, the sum over the poses observing it of (Jc_i^T Jp)^T dy_i. -/
def EvaluateEDeltaPose (self : BAProblem DT) (dy : Fin self.PoseNum × Fin 6 → DT)
    (point_index : Nat) : Vec3 DT :=
  (List.finRange self.PoseNum).foldl
    (fun Edy (i : Fin self.PoseNum) =>
      match self.GetJcJp_pair i.val point_index with
      | none => Edy
      | some Jcp => Edy + Jcp.transpose.mulVec (fun a => dy (i, a)))
    0

/-- Modelled from the spec: `EvaluateDeltaPoint(size_t point_index, Vec3 &)`
(body not in the source tree), the back-substitution
dz_p = (Jp^T Jp)^-1 (Jp^T e (p) - sum_i (Jc_i^T Jp)^T dy_i). -/
def EvaluateDeltaPoint_point (self : BAProblem DT) (dy : Fin self.PoseNum × Fin 6 → DT)
    (point_index : Nat) : Vec3 DT :=
  (Inverse3 (self.GetJpJp point_index)).mulVec
    (self.GetJpe point_index - self.EvaluateEDeltaPose dy point_index)

/-! ### The full normal equations (the reference of the Schur elimination) -/

/-- The pose-pose part of the full normal matrix: block diagonal, Jc^T Jc. -/
def FullJcJc (self : BAProblem DT) :
    Matrix (Fin self.PoseNum × Fin 6) (Fin self.PoseNum × Fin 6) DT :=
  Matrix.of fun ia jb => if ia.1 = jb.1 then self.GetJcJc ia.1 ia.2 jb.2 else 0

/-- The point-point part of the full normal matrix: block diagonal, Jp^T Jp. -/
def FullJpJp (self : BAProblem DT) :
    Matrix (Fin self.PointNum × Fin 3) (Fin self.PointNum × Fin 3) DT :=
  Matrix.of fun pc qd => if pc.1 = qd.1 then self.GetJpJp pc.1 pc.2 qd.2 else 0

/-- The pose-point part of the full normal matrix: the cross block Jc^T Jp of a
pose and a point it observes, zero where the pose does not observe the point. -/
def FullJcJp (self : BAProblem DT) :
    Matrix (Fin self.PoseNum × Fin 6) (Fin self.PointNum × Fin 3) DT :=
  Matrix.of fun ia pc =>
    match self.GetJcJp_pair ia.1 pc.1 with
    | some Jcp => Jcp ia.2 pc.2
    | none => 0

/-- The matrix of the full, non-reduced normal equations, over the pose and the
point unknowns. -/
def FullNormalMatrix (self : BAProblem DT) :
    Matrix ((Fin self.PoseNum × Fin 6) ⊕ (Fin self.PointNum × Fin 3))
      ((Fin self.PoseNum × Fin 6) ⊕ (Fin self.PointNum × Fin 3)) DT :=
  Matrix.fromBlocks self.FullJcJc self.FullJcJp self.FullJcJp.transpose self.FullJpJp

/-- The right-hand side of the full normal equations: Jc^T e over the poses and
Jp^T e over the points. -/
def FullGradient (self : BAProblem DT) :
    (Fin self.PoseNum × Fin 6) ⊕ (Fin self.PointNum × Fin 3) → DT :=
  Sum.elim (fun ia => self.GetJce ia.1 ia.2) (fun pc => self.GetJpe pc.1 pc.2)

/-- The point delta of every point, as one vector over the point unknowns. -/
def EvaluateDeltaPoint (self : BAProblem DT) (dy : Fin self.PoseNum × Fin 6 → DT) :
    Fin self.PointNum × Fin 3 → DT :=
  fun pc => self.EvaluateDeltaPoint_point dy pc.1 pc.2

/-- The block diagonal of the inverted point blocks. -/
def FullJpJpInverse (self : BAProblem DT) :
    Matrix (Fin self.PointNum × Fin 3) (Fin self.PointNum × Fin 3) DT :=
  Matrix.of fun pc qd => if pc.1 = qd.1 then Inverse3 (self.GetJpJp pc.1) pc.2 qd.2 else 0

/-- The cross block of a pose and a point, zero where the pose does not observe
the point. -/
def CrossBlock (self : BAProblem DT) (pose_index point_index : Nat) : Mat63 DT :=
  (self.GetJcJp_pair pose_index point_index).getD 0

/-- Every point block Jp^T Jp of the problem is invertible. -/
def PointBlocksInvertible (self : BAProblem DT) : Prop :=
  ∀ p, p < self.PointNum → (self.GetJpJp p).det ≠ 0

/-- The reduced camera matrix of the problem is invertible. -/
def ReducedMatrixInvertible (self : BAProblem DT) : Prop :=
  self.EvaluateSchurComplement.det ≠ 0

/-- The pose delta `dy` solves the reduced system of the problem. -/
def SolvesReducedSystem (self : BAProblem DT) (dy : Fin self.PoseNum × Fin 6 → DT) : Prop :=
  self.EvaluateSchurComplement.mulVec dy =
    fun ia => self.GetJce ia.1 ia.2 + self.GetEcw ia.1 ia.2

/-- The pair of a pose delta and a point delta is the solution of the full
normal equations: it satisfies them and every vector that satisfies them is
this pair. -/
def IsFullSolution (self : BAProblem DT) (dy : Fin self.PoseNum × Fin 6 → DT)
    (dz : Fin self.PointNum × Fin 3 → DT) : Prop :=
  self.FullNormalMatrix.mulVec (Sum.elim dy dz) = self.FullGradient ∧
    ∀ x, self.FullNormalMatrix.mulVec x = self.FullGradient → x = Sum.elim dy dz

/-- The 6x6 block (i, j) of a matrix over the pose unknowns. -/
def SchurBlock {n : Nat} (S : Matrix (Fin n × Fin 6) (Fin n × Fin 6) DT) (i j : Fin n) :
    Mat6 DT :=
  Matrix.of fun a b => S (i, a) (j, b)

/-- A matrix over the pose unknowns is symmetric block by block: block (i, j) is
the transpose of block (j, i), and every diagonal block is a symmetric matrix. -/
def BlockSymmetric {n : Nat} (S : Matrix (Fin n × Fin 6) (Fin n × Fin 6) DT) : Prop :=
  (∀ i j, SchurBlock S i j = (SchurBlock S j i).transpose) ∧
    ∀ i, (SchurBlock S i i).IsSymm

end Schur

end BAProblem

/-! ## Update loop (spec 4.5) -/

/-- Modelled from the spec: `Solve` is pure virtual in `BAProblem` and its
overrides are not in the source tree.  These are the parts of the update loop
that the spec leaves to the variants: the total squared residual cost of a set
of parameters; the tentative update (evaluating, building, solving and applying
the deltas), with no result when the linear solver fails; the damping schedule;
and the convergence test.  `C` is the type of costs, `D` of damping values. -/
structure UpdateLoop (DT C D : Type) where
  EvaluateSquareResidual : PoseBlock DT → PointBlock DT → IntrinsicBlock DT → C
  TentativeUpdate : BAProblem DT → D → Option (BAProblem DT)
  DecreaseDamping : D → D
  IncreaseDamping : D → D
  Converged : BAProblem DT → Bool

/-- One pass through the update loop, as observed from outside: the problem
before the step, the problem after it, and whether the step was accepted. -/
structure StepRecord (DT : Type) where
  before : BAProblem DT
  after : BAProblem DT
  accepted : Bool

namespace UpdateLoop
variable {DT C D : Type}

/-- The total squared residual cost of the current parameters of a problem. -/
def Cost (L : UpdateLoop DT C D) (P : BAProblem DT) : C :=
  L.EvaluateSquareResidual P.pose_block_ P.point_block_ P.intrinsic_block_

/-- Modelled from the spec: step acceptance.  The tentative update is kept when
the new cost is below the current cost: the update is committed, the damping
decreased and the iteration advanced.  Otherwise, and when the solver failed,
the step is rejected: the parameters are reverted to their values before the
step and the damping is increased. -/
def Step [LT C] [DecidableRel (fun a b : C => a < b)] (L : UpdateLoop DT C D)
    (P : BAProblem DT) (damping : D) : BAProblem DT × D :=
  match L.TentativeUpdate P damping with
  | none => ({ P with step_accept_ := false }, L.IncreaseDamping damping)
  | some Q =>
    if L.Cost Q < L.Cost P then
      ({ Q with step_accept_ := true, iter_ := P.iter_ + 1 }, L.DecreaseDamping damping)
    else
      ({ Q with
          pose_block_ := P.pose_block_
          point_block_ := P.point_block_
          intrinsic_block_ := P.intrinsic_block_
          step_accept_ := false
          iter_ := P.iter_ },
        L.IncreaseDamping damping)

/-- Modelled from the spec: the run of the update loop from a problem and a
damping value, as the list of its steps.  The loop stops when the convergence
test holds or the budget of steps is exhausted. -/
def SolveTrace [LT C] [DecidableRel (fun a b : C => a < b)] (L : UpdateLoop DT C D) :
    Nat → BAProblem DT → D → List (StepRecord DT)
  | 0, _, _ => []
  | budget + 1, P, damping =>
    if L.Converged P then []
    else
      let next := L.Step P damping
      ⟨P, next.1, next.1.step_accept_⟩ :: SolveTrace L budget next.1 next.2

/-- Modelled from the spec: `Solve`, the problem the update loop ends with. -/
def Solve [LT C] [DecidableRel (fun a b : C => a < b)] (L : UpdateLoop DT C D) :
    Nat → BAProblem DT → D → BAProblem DT
  | 0, P, _ => P
  | budget + 1, P, damping =>
    if L.Converged P then P
    else
      let next := L.Step P damping
      Solve L budget next.1 next.2

/-- The costs reached by the accepted steps of a run, in order. -/
def AcceptedCosts (L : UpdateLoop DT C D) (steps : List (StepRecord DT)) : List C :=
  (steps.filter fun r => r.accepted).map fun r => L.Cost r.after

end UpdateLoop

namespace BAProblem
variable {DT : Type}

/-! ### Concrete problems -/

/-- Two problems expose the same counts. -/
def SameCounts (P Q : BAProblem DT) : Prop :=
  Q.PoseNum = P.PoseNum ∧ Q.PointNum = P.PointNum ∧ Q.GroupNum = P.GroupNum ∧
    Q.ProjectionNum = P.ProjectionNum

end BAProblem

/-- A small problem over the rationals: two poses that share one intrinsic
group, one point, and one projection of the point per pose. -/
def demoProblem : BAProblem ℚ where
  pose_block_ := ⟨2, fun _ => (0, 0)⟩
  point_block_ := ⟨1, fun _ => 0, fun _ => 0⟩
  intrinsic_block_ := ⟨1, fun _ => 0⟩
  projection_block_ := ⟨2, fun _ => 0, fun k => (k, 0)⟩
  pose_projection_map_ := fun i p => if i < 2 ∧ p = 0 then some i else none
  point_projection_map_ := fun p i => if i < 2 ∧ p = 0 then some i else none
  common_point_map_ := fun _ _ => [0]
  pose_group_map_ := fun i => if i < 2 then some 0 else none
  group_pose_map_ := fun g => if g = 0 then [0, 1] else []
  group_index_map_ := fun g => if g = 0 then some 0 else none
  pose_index_map_ := fun i => if i < 2 then some i else none
  point_index_map_ := fun p => if p = 0 then some 0 else none
  loss_function_ := 0
  residual_ := fun _ => 0
  pose_jacobian_ := fun _ => Matrix.of fun r c => if r.val = c.val then 1 else 0
  point_jacobian_ := fun k => Matrix.of fun r c => if r.val = c.val then (k : ℚ) + 1 else 0
  pose_jacobian_square_ := fun _ => 0
  point_jacobian_square_ := fun _ => 0
  pose_point_jacobian_product_ := fun _ => 0
  pose_gradient_ := fun _ => 0
  point_gradient_ := fun _ => 0
  Ec_Cinv_w_ := fun _ => 0
  debug_folder_ := ""
  iter_ := 0
  step_accept_ := false
  stream_ := ""
  time_ := 0
  max_degree_ := 1
  thread_num_ := 1
  linear_solver_type_ := SPARSE

/-- The cross block of the single projection of `tinyProblem`: the first three
pose parameters are coupled to the three point coordinates. -/
def tinyCross : Mat63 ℚ := Matrix.of fun a c => if a.val = c.val then 1 else 0

/-- A one-pose, one-point, one-projection problem over the rationals with the
normal-equation blocks filled in: Jp^T Jp is the identity, Jc^T Jp is
`tinyCross`, and Jc^T Jc is the identity plus `tinyCross * tinyCross^T`. -/
def tinyProblem : BAProblem ℚ where
  pose_block_ := ⟨1, fun _ => (0, 0)⟩
  point_block_ := ⟨1, fun _ => 0, fun _ => 0⟩
  intrinsic_block_ := ⟨1, fun _ => 0⟩
  projection_block_ := ⟨1, fun _ => 0, fun _ => (0, 0)⟩
  pose_projection_map_ := fun i p => if i = 0 ∧ p = 0 then some 0 else none
  point_projection_map_ := fun p i => if i = 0 ∧ p = 0 then some 0 else none
  common_point_map_ := fun _ _ => [0]
  pose_group_map_ := fun i => if i = 0 then some 0 else none
  group_pose_map_ := fun g => if g = 0 then [0] else []
  group_index_map_ := fun g => if g = 0 then some 0 else none
  pose_index_map_ := fun i => if i = 0 then some 0 else none
  point_index_map_ := fun p => if p = 0 then some 0 else none
  loss_function_ := 0
  residual_ := fun _ => 0
  pose_jacobian_ := fun _ => 0
  point_jacobian_ := fun _ => 0
  pose_jacobian_square_ := fun _ => 1 + tinyCross * tinyCross.transpose
  point_jacobian_square_ := fun _ => 1
  pose_point_jacobian_product_ := fun _ => tinyCross
  pose_gradient_ := fun _ _ => 1
  point_gradient_ := fun _ _ => 1
  Ec_Cinv_w_ := fun _ => 0
  debug_folder_ := ""
  iter_ := 0
  step_accept_ := false
  stream_ := ""
  time_ := 0
  max_degree_ := 0
  thread_num_ := 1
  linear_solver_type_ := DENSE

/-- An update loop over the rationals: the cost is the squared distance of the
first coordinate of point 0 from 1, the tentative update moves every point
coordinate by 1, and the damping is halved or doubled. -/
def demoLoop : UpdateLoop ℚ ℚ ℚ where
  EvaluateSquareResidual := fun _ points _ => (points.points_ 0 0 - 1) ^ 2
  TentativeUpdate := fun P _ =>
    some { P with point_block_ :=
      { P.point_block_ with points_ := (fun i c => P.point_block_.points_ i c + 1) } }
  DecreaseDamping := fun d => d / 2
  IncreaseDamping := fun d => d * 2
  Converged := fun _ => false

namespace BAProblem
variable {DT : Type}

/-! ## Configuration members -/

/-- C10: debug-folder round trip.  `GetDebugFolder` after `SetDebugFolder s`
returns `s`; `GetDebugFolder` leaves the problem as it is; and
`SetDebugFolder` changes no member other than `debug_folder_`: putting the old
folder back gives the old problem, and in particular the thread count, the
solver strategy and the four data blocks are the same. -/
theorem debug_folder_round_trip (P : BAProblem DT) (s : String) :
    (P.SetDebugFolder s).GetDebugFolder.1 = s ∧
    P.GetDebugFolder.2 = P ∧
    { P.SetDebugFolder s with debug_folder_ := P.debug_folder_ } = P ∧
    (P.SetDebugFolder s).thread_num_ = P.thread_num_ ∧
    (P.SetDebugFolder s).linear_solver_type_ = P.linear_solver_type_ ∧
    (P.SetDebugFolder s).pose_block_ = P.pose_block_ ∧
    (P.SetDebugFolder s).point_block_ = P.point_block_ ∧
    (P.SetDebugFolder s).intrinsic_block_ = P.intrinsic_block_ ∧
    (P.SetDebugFolder s).projection_block_ = P.projection_block_ :=
  ⟨rfl, rfl, rfl, rfl, rfl, rfl, rfl, rfl, rfl⟩

/-- C8: `SetLinearSolveType` maps its argument by enumerator value: 0 selects
SPARSE, 1 DENSE, 2 ITERATIVE, 3 ADAPTIVE, and the map from the integers 0, 1, 2, 3
to the four strategies is a bijection. -/
theorem set_linear_solve_type_by_value (P : BAProblem DT) :
    (P.SetLinearSolveType 0).linear_solver_type_ = SPARSE ∧
    (P.SetLinearSolveType 1).linear_solver_type_ = DENSE ∧
    (P.SetLinearSolveType 2).linear_solver_type_ = ITERATIVE ∧
    (P.SetLinearSolveType 3).linear_solver_type_ = ADAPTIVE ∧
    Set.BijOn (fun t : Int => (P.SetLinearSolveType t).linear_solver_type_)
      {0, 1, 2, 3} {SPARSE, DENSE, ITERATIVE, ADAPTIVE} := by
  refine ⟨rfl, rfl, rfl, rfl, ?_, ?_, ?_⟩
  · intro t ht
    simp only [Set.mem_insert_iff, Set.mem_singleton_iff] at ht ⊢
    rcases ht with rfl | rfl | rfl | rfl
    · exact Or.inl rfl
    · exact Or.inr (Or.inl rfl)
    · exact Or.inr (Or.inr (Or.inl rfl))
    · exact Or.inr (Or.inr (Or.inr rfl))
  · intro a _ b _ hab
    have h : (static_cast_LinearSolverType a).val = (static_cast_LinearSolverType b).val :=
      congrArg LinearSolverType.val hab
    exact h
  · intro y hy
    simp only [Set.mem_insert_iff, Set.mem_singleton_iff] at hy
    rcases hy with rfl | rfl | rfl | rfl
    · exact ⟨0, by simp, rfl⟩
    · exact ⟨1, by simp, rfl⟩
    · exact ⟨2, by simp, rfl⟩
    · exact ⟨3, by simp, rfl⟩

/-- C6, as the code has it: for every integer `t` from 0 to 3 the strategy
stored by `SetLinearSolveType t` is one of SPARSE, DENSE, ITERATIVE, ADAPTIVE. -/
theorem set_linear_solve_type_in_range (P : BAProblem DT) (t : Int)
    (h0 : 0 ≤ t) (h3 : t ≤ 3) :
    (P.SetLinearSolveType t).linear_solver_type_ = SPARSE ∨
    (P.SetLinearSolveType t).linear_solver_type_ = DENSE ∨
    (P.SetLinearSolveType t).linear_solver_type_ = ITERATIVE ∨
    (P.SetLinearSolveType t).linear_solver_type_ = ADAPTIVE := by
  have ht : t = 0 ∨ t = 1 ∨ t = 2 ∨ t = 3 := by omega
  rcases ht with rfl | rfl | rfl | rfl
  · exact Or.inl rfl
  · exact Or.inr (Or.inl rfl)
  · exact Or.inr (Or.inr (Or.inl rfl))
  · exact Or.inr (Or.inr (Or.inr rfl))

/-! ## Indexed data blocks seen through the problem -/

/-- C5: `GetPoseIntrinsic p` is `GetIntrinsic` of the group `GetPoseGroup p` (and
has no result when the pose has no group); two poses of the same group obtain
the same intrinsics; and after a successful `SetIntrinsic g v`, which a valid
group index guarantees, every pose of group `g` is still in group `g` and
obtains `v` from `GetPoseIntrinsic`. -/
theorem pose_intrinsic_of_group (P : BAProblem DT) :
    (∀ p g, P.GetPoseGroup p = some g → P.GetPoseIntrinsic p = P.GetIntrinsic g) ∧
    (∀ p, P.GetPoseGroup p = none → P.GetPoseIntrinsic p = none) ∧
    (∀ p q g, P.GetPoseGroup p = some g → P.GetPoseGroup q = some g →
      P.GetPoseIntrinsic p = P.GetPoseIntrinsic q) ∧
    (∀ g v, (g < P.GroupNum → (P.SetIntrinsic g v).isSome) ∧
      ∀ Q, P.SetIntrinsic g v = some Q → ∀ p, P.GetPoseGroup p = some g →
        Q.GetPoseGroup p = some g ∧ Q.GetPoseIntrinsic p = some v) := by
  refine ⟨?_, ?_, ?_, ?_⟩
  · intro p g hg
    simp [GetPoseIntrinsic, hg]
  · intro p hg
    simp [GetPoseIntrinsic, hg]
  · intro p q g hp hq
    simp [GetPoseIntrinsic, hp, hq]
  · intro g v
    constructor
    · intro hlt
      have hlt' : g < P.intrinsic_block_.group_num_ := hlt
      simp [SetIntrinsic, IntrinsicBlock.SetIntrinsic, hlt']
    · intro Q hQ p hp
      by_cases hlt : g < P.intrinsic_block_.group_num_
      · simp only [SetIntrinsic, IntrinsicBlock.SetIntrinsic, hlt, if_true, Option.map_some',
          Option.some.injEq] at hQ
        subst hQ
        refine ⟨hp, ?_⟩
        have hp' : P.pose_group_map_ p = some g := hp
        simp [GetPoseIntrinsic, GetPoseGroup, GetIntrinsic, IntrinsicBlock.GetIntrinsic, hp', hlt]
      · simp [SetIntrinsic, IntrinsicBlock.SetIntrinsic, hlt] at hQ

/-- C9: each indexed setter writes only to its own data block.  A setter
succeeds at a valid index, and whenever it succeeds: `SetPose` leaves the four
counts and every `GetPoint`, `GetColor` and `GetIntrinsic` as they were;
`SetPoint` and `SetColor` leave the counts and every `GetPose` and
`GetIntrinsic` as they were; `SetIntrinsic` leaves the counts and every
`GetPose`, `GetPoint` and `GetColor` as they were. -/
theorem setters_write_own_block (P : BAProblem DT) (idx : Nat) :
    (∀ angle_axis translation,
      (idx < P.PoseNum → (P.SetPose idx angle_axis translation).isSome) ∧
      ∀ Q, P.SetPose idx angle_axis translation = some Q →
        SameCounts P Q ∧ (∀ j, Q.GetPoint j = P.GetPoint j) ∧
        (∀ j, Q.GetColor j = P.GetColor j) ∧ (∀ j, Q.GetIntrinsic j = P.GetIntrinsic j)) ∧
    (∀ point,
      (idx < P.PointNum → (P.SetPoint idx point).isSome) ∧
      ∀ Q, P.SetPoint idx point = some Q →
        SameCounts P Q ∧ (∀ j, Q.GetPose j = P.GetPose j) ∧
        (∀ j, Q.GetIntrinsic j = P.GetIntrinsic j)) ∧
    (∀ color,
      (idx < P.PointNum → (P.SetColor idx color).isSome) ∧
      ∀ Q, P.SetColor idx color = some Q →
        SameCounts P Q ∧ (∀ j, Q.GetPose j = P.GetPose j) ∧
        (∀ j, Q.GetIntrinsic j = P.GetIntrinsic j)) ∧
    (∀ intrinsic,
      (idx < P.GroupNum → (P.SetIntrinsic idx intrinsic).isSome) ∧
      ∀ Q, P.SetIntrinsic idx intrinsic = some Q →
        SameCounts P Q ∧ (∀ j, Q.GetPose j = P.GetPose j) ∧
        (∀ j, Q.GetPoint j = P.GetPoint j) ∧ (∀ j, Q.GetColor j = P.GetColor j)) := by
  refine ⟨?_, ?_, ?_, ?_⟩
  · intro angle_axis translation
    by_cases hlt : idx < P.pose_block_.pose_num_
    · refine ⟨fun _ => by simp [SetPose, PoseBlock.SetPose, hlt], ?_⟩
      intro Q hQ
      simp only [SetPose, PoseBlock.SetPose, hlt, if_true, Option.map_some',
        Option.some.injEq] at hQ
      subst hQ
      exact ⟨⟨rfl, rfl, rfl, rfl⟩, fun _ => rfl, fun _ => rfl, fun _ => rfl⟩
    · refine ⟨fun h => absurd h hlt, ?_⟩
      intro Q hQ
      simp [SetPose, PoseBlock.SetPose, hlt] at hQ
  · intro point
    by_cases hlt : idx < P.point_block_.point_num_
    · refine ⟨fun _ => by simp [SetPoint, PointBlock.SetPoint, hlt], ?_⟩
      intro Q hQ
      simp only [SetPoint, PointBlock.SetPoint, hlt, if_true, Option.map_some',
        Option.some.injEq] at hQ
      subst hQ
      exact ⟨⟨rfl, rfl, rfl, rfl⟩, fun _ => rfl, fun _ => rfl⟩
    · refine ⟨fun h => absurd h hlt, ?_⟩
      intro Q hQ
      simp [SetPoint, PointBlock.SetPoint, hlt] at hQ
  · intro color
    by_cases hlt : idx < P.point_block_.point_num_
    · refine ⟨fun _ => by simp [SetColor, PointBlock.SetColor, hlt], ?_⟩
      intro Q hQ
      simp only [SetColor, PointBlock.SetColor, hlt, if_true, Option.map_some',
        Option.some.injEq] at hQ
      subst hQ
      exact ⟨⟨rfl, rfl, rfl, rfl⟩, fun _ => rfl, fun _ => rfl⟩
    · refine ⟨fun h => absurd h hlt, ?_⟩
      intro Q hQ
      simp [SetColor, PointBlock.SetColor, hlt] at hQ
  · intro intrinsic
    by_cases hlt : idx < P.intrinsic_block_.group_num_
    · refine ⟨fun _ => by simp [SetIntrinsic, IntrinsicBlock.SetIntrinsic, hlt], ?_⟩
      intro Q hQ
      simp only [SetIntrinsic, IntrinsicBlock.SetIntrinsic, hlt, if_true, Option.map_some',
        Option.some.injEq] at hQ
      subst hQ
      exact ⟨⟨rfl, rfl, rfl, rfl⟩, fun _ => rfl, fun _ => rfl, fun _ => rfl⟩
    · refine ⟨fun h => absurd h hlt, ?_⟩
      intro Q hQ
      simp [SetIntrinsic, IntrinsicBlock.SetIntrinsic, hlt] at hQ

/-! ## Normal-equation accumulator -/

theorem isSymm_set_diagonal {n : Type} [DecidableEq n] (M : Matrix n n DT) (d : n → DT)
    (h : M.IsSymm) : (Matrix.of fun a b => if a = b then d a else M a b).IsSymm := by
  ext a b
  simp only [Matrix.transpose_apply, Matrix.of_apply]
  by_cases hab : a = b
  · subst hab; rfl
  · rw [if_neg hab, if_neg (Ne.symm hab)]
    exact h.apply a b

theorem blockSymmetric_of_isSymm {n : Nat} (S : Matrix (Fin n × Fin 6) (Fin n × Fin 6) DT)
    (hS : S.IsSymm) : BlockSymmetric S := by
  have hblock : ∀ i j, SchurBlock S i j = (SchurBlock S j i).transpose := by
    intro i j
    ext a b
    simp only [SchurBlock, Matrix.of_apply, Matrix.transpose_apply]
    exact (hS.apply (i, a) (j, b)).symm
  exact ⟨hblock, fun i => (hblock i i).symm⟩

theorem SetDiagonal_JcJc_isSymm (R : BAProblem DT) (dpose dpoint : Nat → DT)
    (h : ∀ i, (R.GetJcJc i).IsSymm) (i : Nat) :
    (((R.SetPoseDiagonal dpose).SetPointDiagonal dpoint).GetJcJc i).IsSymm := by
  show (if i < R.PoseNum then
      Matrix.of fun a b : Fin 6 =>
        if a = b then dpose (6 * i + a.val) else R.pose_jacobian_square_ i a b
    else R.pose_jacobian_square_ i).IsSymm
  split
  · exact isSymm_set_diagonal _ (fun a => dpose (6 * i + a.val)) (h i)
  · exact h i

theorem SetDiagonal_JpJp_isSymm (R : BAProblem DT) (dpose dpoint : Nat → DT)
    (h : ∀ p, (R.GetJpJp p).IsSymm) (p : Nat) :
    (((R.SetPoseDiagonal dpose).SetPointDiagonal dpoint).GetJpJp p).IsSymm := by
  show (if p < R.PointNum then
      Matrix.of fun c d : Fin 3 =>
        if c = d then dpoint (3 * p + c.val) else R.point_jacobian_square_ p c d
    else R.point_jacobian_square_ p).IsSymm
  split
  · exact isSymm_set_diagonal _ (fun c => dpoint (3 * p + c.val)) (h p)
  · exact h p

section Accumulator
variable [Field DT]

/-- Accumulating `f k` into slot `slot k` for `k = 0, ..., n - 1` adds to every
slot the sum of the `f k` whose slot it is. -/
theorem foldl_update_add {β : Type} [AddCommMonoid β] (slot : Nat → Nat) (f : Nat → β)
    (g : Nat → β) (n : Nat) :
    (List.range n).foldl (fun h k => Function.update h (slot k) (h (slot k) + f k)) g =
      fun c => g c + ∑ k in (Finset.range n).filter (fun k => slot k = c), f k := by
  induction n with
  | zero => funext c; simp
  | succ n ih =>
    rw [List.range_succ, List.foldl_append, ih]
    funext c
    simp only [List.foldl_cons, List.foldl_nil, Finset.range_succ, Finset.filter_insert]
    by_cases hc : slot n = c
    · subst hc
      simp [Finset.sum_insert, add_assoc, add_comm (f n)]
    · simp [hc, Function.update_noteq (Ne.symm hc)]

theorem foldl_IncreJcJc (l : List Nat) (P : BAProblem DT) :
    l.foldl (fun Q k => Q.IncreJcJc (Q.projection_block_.PoseIndex k)
        ((Q.GetPoseJacobian k).transpose * Q.GetPoseJacobian k)) P =
      { P with pose_jacobian_square_ :=
          (l.foldl (fun h k => Function.update h (P.projection_block_.PoseIndex k)
            (h (P.projection_block_.PoseIndex k) +
              (P.GetPoseJacobian k).transpose * P.GetPoseJacobian k))
            P.pose_jacobian_square_) } := by
  induction l generalizing P with
  | nil => rfl
  | cons k l ih => rw [List.foldl_cons, ih]; rfl

theorem foldl_IncreJpJp (l : List Nat) (P : BAProblem DT) :
    l.foldl (fun Q k => Q.IncreJpJp (Q.projection_block_.PointIndex k)
        ((Q.GetPointJacobian k).transpose * Q.GetPointJacobian k)) P =
      { P with point_jacobian_square_ :=
          (l.foldl (fun h k => Function.update h (P.projection_block_.PointIndex k)
            (h (P.projection_block_.PointIndex k) +
              (P.GetPointJacobian k).transpose * P.GetPointJacobian k))
            P.point_jacobian_square_) } := by
  induction l generalizing P with
  | nil => rfl
  | cons k l ih => rw [List.foldl_cons, ih]; rfl

theorem foldl_SetJcJp (n : Nat) (P : BAProblem DT) :
    (List.range n).foldl (fun Q k => Q.SetJcJp k (Q.EvaluateJcJp_proj k)) P =
      { P with pose_point_jacobian_product_ := (fun k =>
          if k < n then P.EvaluateJcJp_proj k else P.pose_point_jacobian_product_ k) } := by
  induction n with
  | zero => cases P; simp
  | succ n ih =>
    rw [List.range_succ, List.foldl_append, ih]
    simp only [List.foldl_cons, List.foldl_nil, SetJcJp, EvaluateJcJp_proj, GetPoseJacobian,
      GetPointJacobian]
    congr 1
    funext k
    by_cases hk : k = n
    · subst hk; simp
    · have : (k < n + 1) = (k < n) := by
        apply propext; omega
      simp [Function.update_noteq hk, this]

theorem EvaluateJcJc_eq (P : BAProblem DT) :
    P.EvaluateJcJc = { P with pose_jacobian_square_ := (fun c =>
      P.pose_jacobian_square_ c +
        ∑ k in (Finset.range P.ProjectionNum).filter
            (fun k => P.projection_block_.PoseIndex k = c),
          (P.GetPoseJacobian k).transpose * P.GetPoseJacobian k) } := by
  rw [EvaluateJcJc, foldl_IncreJcJc, foldl_update_add]

theorem EvaluateJpJp_eq (P : BAProblem DT) :
    P.EvaluateJpJp = { P with point_jacobian_square_ := (fun p =>
      P.point_jacobian_square_ p +
        ∑ k in (Finset.range P.ProjectionNum).filter
            (fun k => P.projection_block_.PointIndex k = p),
          (P.GetPointJacobian k).transpose * P.GetPointJacobian k) } := by
  rw [EvaluateJpJp, foldl_IncreJpJp, foldl_update_add]

theorem AccumulationPass_GetJcJc (P : BAProblem DT) (c : Nat) :
    P.AccumulationPass.GetJcJc c =
      ∑ k in (Finset.range P.ProjectionNum).filter
          (fun k => P.projection_block_.PoseIndex k = c),
        (P.GetPoseJacobian k).transpose * P.GetPoseJacobian k := by
  rw [AccumulationPass, EvaluateJcJp, foldl_SetJcJp, EvaluateJpJp_eq, EvaluateJcJc_eq]
  simp [GetJcJc, ClearJcJp, ClearJpJp, ClearJcJc, ProjectionNum, GetPoseJacobian]

theorem AccumulationPass_GetJpJp (P : BAProblem DT) (p : Nat) :
    P.AccumulationPass.GetJpJp p =
      ∑ k in (Finset.range P.ProjectionNum).filter
          (fun k => P.projection_block_.PointIndex k = p),
        (P.GetPointJacobian k).transpose * P.GetPointJacobian k := by
  rw [AccumulationPass, EvaluateJcJp, foldl_SetJcJp, EvaluateJpJp_eq, EvaluateJcJc_eq]
  simp [GetJpJp, ClearJcJp, ClearJpJp, ClearJcJc, ProjectionNum, GetPointJacobian]

theorem AccumulationPass_GetJcJp (P : BAProblem DT) (k : Nat) (hk : k < P.ProjectionNum) :
    P.AccumulationPass.GetJcJp k =
      (P.GetPoseJacobian k).transpose * P.GetPointJacobian k := by
  rw [AccumulationPass, EvaluateJcJp, foldl_SetJcJp, EvaluateJpJp_eq, EvaluateJcJc_eq]
  have hk' : k < P.projection_block_.ProjectionNum := hk
  simp [GetJcJp, ClearJcJp, ClearJpJp, ClearJcJc, ProjectionNum, GetPoseJacobian,
    GetPointJacobian, EvaluateJcJp_proj, hk']

/-- C3: after the accumulation pass, the block JcJc of every pose `c` is the sum
of Jc^T Jc over exactly the projections that reference pose `c`, the block JpJp
of every point `p` is the sum of Jp^T Jp over exactly the projections that
reference point `p`, and the cross block JcJp of every projection is the
Jc^T Jp of that projection alone. -/
theorem accumulation_pass_blocks (P : BAProblem DT) :
    (∀ c, P.AccumulationPass.GetJcJc c =
      ∑ k in (Finset.range P.ProjectionNum).filter
          (fun k => P.projection_block_.PoseIndex k = c),
        (P.GetPoseJacobian k).transpose * P.GetPoseJacobian k) ∧
    (∀ p, P.AccumulationPass.GetJpJp p =
      ∑ k in (Finset.range P.ProjectionNum).filter
          (fun k => P.projection_block_.PointIndex k = p),
        (P.GetPointJacobian k).transpose * P.GetPointJacobian k) ∧
    (∀ k, k < P.ProjectionNum →
      P.AccumulationPass.GetJcJp k =
        (P.GetPoseJacobian k).transpose * P.GetPointJacobian k) :=
  ⟨AccumulationPass_GetJcJc P, AccumulationPass_GetJpJp P, AccumulationPass_GetJcJp P⟩

theorem isSymm_sum_transpose_mul_self {m : Type} [Fintype m] {n : Type} (s : Finset Nat)
    (J : Nat → Matrix m n DT) : (∑ k in s, (J k).transpose * J k).IsSymm := by
  unfold Matrix.IsSymm
  rw [Matrix.transpose_sum]
  refine Finset.sum_congr rfl fun k _ => ?_
  rw [Matrix.transpose_mul, Matrix.transpose_transpose]

theorem AccumulationPass_JcJc_isSymm (P : BAProblem DT) (c : Nat) :
    (P.AccumulationPass.GetJcJc c).IsSymm := by
  rw [AccumulationPass_GetJcJc]
  exact isSymm_sum_transpose_mul_self _ _

theorem AccumulationPass_JpJp_isSymm (P : BAProblem DT) (p : Nat) :
    (P.AccumulationPass.GetJpJp p).IsSymm := by
  rw [AccumulationPass_GetJpJp]
  exact isSymm_sum_transpose_mul_self _ _

end Accumulator

/-! ## Schur complement builder -/

theorem foldl_range_add {β : Type} [AddCommMonoid β] (step : β → Nat → β) (t : Nat → β)
    (h : ∀ acc k, step acc k = acc + t k) (a : β) (n : Nat) :
    (List.range n).foldl step a = a + ∑ k in Finset.range n, t k := by
  induction n with
  | zero => simp
  | succ n ih =>
    rw [List.range_succ, List.foldl_append, ih, Finset.sum_range_succ]
    simp [h, add_assoc]

theorem foldl_list_add {α β : Type} [AddCommMonoid β] (step : β → α → β) (t : α → β)
    (h : ∀ acc k, step acc k = acc + t k) (a : β) (l : List α) :
    l.foldl step a = a + (l.map t).sum := by
  induction l generalizing a with
  | nil => simp
  | cons x l ih => simp [ih, h, add_assoc]

theorem sum_map_filter_range {β : Type} [AddCommMonoid β] (c : Nat → Bool) (t : Nat → β)
    (n : Nat) :
    (((List.range n).filter c).map t).sum = ∑ k in Finset.range n, if c k then t k else 0 := by
  induction n with
  | zero => simp
  | succ n ih =>
    rw [List.range_succ, List.filter_append, List.map_append, List.sum_append, ih,
      Finset.sum_range_succ]
    cases hc : c n <;> simp [List.filter_cons, hc]

section InverseFacts
variable [Field DT]

theorem Inverse3_eq_inv (m : Mat3 DT) : Inverse3 m = m⁻¹ := by
  rw [Inverse3, Matrix.inv_def, Ring.inverse_eq_inv']

theorem Inverse3_of_det_eq_zero (m : Mat3 DT) (h : m.det = 0) : Inverse3 m = 0 := by
  simp [Inverse3, h]

theorem mul_Inverse3 (m : Mat3 DT) (h : m.det ≠ 0) : m * Inverse3 m = 1 := by
  rw [Inverse3_eq_inv]
  exact Matrix.mul_nonsing_inv m (isUnit_iff_ne_zero.mpr h)

theorem FullJcJp_apply (P : BAProblem DT) (ia : Fin P.PoseNum × Fin 6)
    (pc : Fin P.PointNum × Fin 3) :
    P.FullJcJp ia pc = P.CrossBlock ia.1 pc.1 ia.2 pc.2 := by
  unfold FullJcJp CrossBlock
  simp only [Matrix.of_apply]
  cases P.GetJcJp_pair ia.1 pc.1 <;> rfl

theorem FullJcJp_mul_inverse_apply (P : BAProblem DT) (ia : Fin P.PoseNum × Fin 6)
    (qd : Fin P.PointNum × Fin 3) :
    (P.FullJcJp * P.FullJpJpInverse) ia qd =
      (P.CrossBlock ia.1 qd.1 * Inverse3 (P.GetJpJp qd.1)) ia.2 qd.2 := by
  simp only [Matrix.mul_apply, Fintype.sum_prod_type, FullJcJp_apply, FullJpJpInverse,
    Matrix.of_apply]
  rw [Finset.sum_eq_single qd.1]
  · simp
  · intro p _ hp
    simp [hp]
  · simp

theorem FullEcEc_apply (P : BAProblem DT) (ia jb : Fin P.PoseNum × Fin 6) :
    (P.FullJcJp * P.FullJpJpInverse * P.FullJcJp.transpose) ia jb =
      (∑ p : Fin P.PointNum,
        P.CrossBlock ia.1 p * Inverse3 (P.GetJpJp p) * (P.CrossBlock jb.1 p).transpose)
        ia.2 jb.2 := by
  rw [Matrix.mul_apply, Fintype.sum_prod_type, Matrix.sum_apply]
  refine Finset.sum_congr rfl fun p _ => ?_
  rw [Matrix.mul_apply]
  refine Finset.sum_congr rfl fun c _ => ?_
  rw [FullJcJp_mul_inverse_apply, Matrix.transpose_apply, FullJcJp_apply, Matrix.transpose_apply]

/-- Solving through the Schur complement solves the full block system: if `dy`
solves the reduced system, then `dy` with the back-substituted `dz` solves the
full one. -/
theorem schur_solution {ι κ : Type} [Fintype ι] [Fintype κ] [DecidableEq ι] [DecidableEq κ]
    (B : Matrix ι ι DT) (E : Matrix ι κ DT) (C Ci : Matrix κ κ DT) (hCi : C * Ci = 1)
    (b : ι → DT) (c : κ → DT) (dy : ι → DT)
    (hdy : (B - E * Ci * E.transpose).mulVec dy = b - (E * Ci).mulVec c) :
    (Matrix.fromBlocks B E E.transpose C).mulVec
      (Sum.elim dy (Ci.mulVec (c - E.transpose.mulVec dy))) = Sum.elim b c := by
  rw [Matrix.fromBlocks_mulVec]
  simp only [Sum.elim_comp_inl, Sum.elim_comp_inr]
  refine congrArg₂ Sum.elim ?_ ?_
  · have h1 : B.mulVec dy = b - (E * Ci).mulVec c + (E * Ci * E.transpose).mulVec dy := by
      rw [← hdy, Matrix.sub_mulVec]; abel
    rw [h1, Matrix.mulVec_mulVec, Matrix.mulVec_sub, Matrix.mulVec_mulVec]
    abel
  · rw [Matrix.mulVec_mulVec, hCi, Matrix.one_mulVec]
    abel

/-- The solution of the full block system is unique when the point block and
the Schur complement are invertible. -/
theorem schur_solution_unique {ι κ : Type} [Fintype ι] [Fintype κ] [DecidableEq ι]
    [DecidableEq κ] (B : Matrix ι ι DT) (E : Matrix ι κ DT) (C Ci : Matrix κ κ DT)
    (hCi : C * Ci = 1) (hS : (B - E * Ci * E.transpose).det ≠ 0)
    (b : ι → DT) (c : κ → DT) (dy : ι → DT)
    (hdy : (B - E * Ci * E.transpose).mulVec dy = b - (E * Ci).mulVec c)
    (x : ι ⊕ κ → DT)
    (hx : (Matrix.fromBlocks B E E.transpose C).mulVec x = Sum.elim b c) :
    x = Sum.elim dy (Ci.mulVec (c - E.transpose.mulVec dy)) := by
  have hCi' : Ci * C = 1 := Matrix.mul_eq_one_comm.mp hCi
  rw [Matrix.fromBlocks_mulVec] at hx
  have hrow1 : B.mulVec (x ∘ Sum.inl) + E.mulVec (x ∘ Sum.inr) = b := by
    have := congrArg (fun v => v ∘ Sum.inl) hx
    simpa using this
  have hrow2 : E.transpose.mulVec (x ∘ Sum.inl) + C.mulVec (x ∘ Sum.inr) = c := by
    have := congrArg (fun v => v ∘ Sum.inr) hx
    simpa using this
  have hz : x ∘ Sum.inr = Ci.mulVec (c - E.transpose.mulVec (x ∘ Sum.inl)) := by
    rw [← hrow2, add_sub_cancel_left, Matrix.mulVec_mulVec, hCi', Matrix.one_mulVec]
  have hy : (B - E * Ci * E.transpose).mulVec (x ∘ Sum.inl) = b - (E * Ci).mulVec c := by
    rw [hz] at hrow1
    rw [← hrow1, Matrix.sub_mulVec, Matrix.mulVec_mulVec, Matrix.mulVec_sub,
      Matrix.mulVec_mulVec]
    abel
  have hinj := Matrix.mulVec_injective_iff_isUnit.mpr
    ((Matrix.isUnit_iff_isUnit_det _).mpr (isUnit_iff_ne_zero.mpr hS))
  have hyeq : x ∘ Sum.inl = dy := hinj (hy.trans hdy.symm)
  funext s
  cases s with
  | inl i => simpa using congrFun hyeq i
  | inr k =>
    have := congrFun hz k
    rw [hyeq] at this
    simpa using this

theorem FullJpJp_mul_inverse (P : BAProblem DT)
    (hC : ∀ p, p < P.PointNum → (P.GetJpJp p).det ≠ 0) :
    P.FullJpJp * P.FullJpJpInverse = 1 := by
  ext ⟨p, c⟩ ⟨r, e⟩
  simp only [Matrix.mul_apply, Fintype.sum_prod_type, FullJpJp, FullJpJpInverse, Matrix.of_apply]
  rw [Finset.sum_eq_single p]
  · by_cases hpr : p = r
    · subst hpr
      have h := congrFun (congrFun (mul_Inverse3 _ (hC p p.2)) c) e
      rw [Matrix.mul_apply] at h
      simp only [if_true]
      rw [h, Matrix.one_apply, Matrix.one_apply]
      simp
    · have hne : (p, c) ≠ (r, e) := fun h => hpr (congrArg Prod.fst h)
      simp [hpr, Matrix.one_apply, hne]
  · intro q _ hq
    simp [Ne.symm hq]
  · simp

theorem EvaluateEDeltaPose_eq (P : BAProblem DT) (dy : Fin P.PoseNum × Fin 6 → DT) (p : Nat) :
    P.EvaluateEDeltaPose dy p =
      ∑ i : Fin P.PoseNum, (P.CrossBlock i p).transpose.mulVec fun a => dy (i, a) := by
  rw [EvaluateEDeltaPose, foldl_list_add _
    (fun i : Fin P.PoseNum => (P.CrossBlock i p).transpose.mulVec fun a => dy (i, a)),
    zero_add, Fin.sum_univ_def]
  intro acc i
  unfold CrossBlock
  cases P.GetJcJp_pair i.val p <;> simp

theorem EvaluateDeltaPoint_eq (P : BAProblem DT) (dy : Fin P.PoseNum × Fin 6 → DT) :
    P.EvaluateDeltaPoint dy =
      P.FullJpJpInverse.mulVec
        ((fun pc : Fin P.PointNum × Fin 3 => P.GetJpe pc.1 pc.2) -
          P.FullJcJp.transpose.mulVec dy) := by
  funext ⟨p, c⟩
  simp only [EvaluateDeltaPoint, EvaluateDeltaPoint_point, EvaluateEDeltaPose_eq, Matrix.mulVec,
    Matrix.dotProduct, Fintype.sum_prod_type, FullJpJpInverse, Matrix.of_apply, Pi.sub_apply,
    Matrix.transpose_apply, FullJcJp_apply, Finset.sum_apply]
  rw [Finset.sum_eq_single p]
  · simp
  · intro q _ hq
    simp [Ne.symm hq]
  · simp

theorem schur_block_transpose (R : BAProblem DT)
    (hB : ∀ i, (R.GetJcJc i).IsSymm) (hC : ∀ p, (R.GetJpJp p).IsSymm)
    (i j : Fin R.PoseNum) :
    ((if j = i then R.GetJcJc j else 0) -
        ∑ p : Fin R.PointNum,
          R.CrossBlock j p * Inverse3 (R.GetJpJp p) * (R.CrossBlock i p).transpose).transpose =
      (if i = j then R.GetJcJc i else 0) -
        ∑ p : Fin R.PointNum,
          R.CrossBlock i p * Inverse3 (R.GetJpJp p) * (R.CrossBlock j p).transpose := by
  rw [Matrix.transpose_sub, Matrix.transpose_sum]
  congr 1
  · by_cases h : i = j
    · rw [if_pos h, if_pos h.symm, h]
      exact hB _
    · rw [if_neg h, if_neg (Ne.symm h), Matrix.transpose_zero]
  · refine Finset.sum_congr rfl fun p _ => ?_
    rw [Matrix.transpose_mul, Matrix.transpose_mul, Matrix.transpose_transpose, Inverse3_eq_inv,
      Matrix.transpose_nonsing_inv, (hC p), Matrix.mul_assoc]

end InverseFacts

section SchurFacts
variable [Field DT] [DecidableEq DT]

theorem SolveLinearSystem_of_det_ne_zero {ι : Type} [Fintype ι] [DecidableEq ι]
    (A : Matrix ι ι DT) (b : ι → DT) (h : A.det ≠ 0) :
    ∃ x, SolveLinearSystem A b = some x ∧ A.mulVec x = b := by
  refine ⟨(A.det)⁻¹ • A.adjugate.mulVec b, by simp [SolveLinearSystem, h], ?_⟩
  rw [Matrix.mulVec_smul, Matrix.mulVec_mulVec, Matrix.mul_adjugate, Matrix.smul_mulVec_assoc,
    Matrix.one_mulVec, smul_smul, inv_mul_cancel₀ h, one_smul]

theorem EvaluateEcw_pose_eq (P : BAProblem DT) (i : Nat) :
    P.EvaluateEcw_pose i =
      ∑ p in Finset.range P.PointNum,
        (P.CrossBlock i p * Inverse3 (P.GetJpJp p)).mulVec (-(P.GetJpe p)) := by
  rw [EvaluateEcw_pose, foldl_range_add _
    (fun p => (P.CrossBlock i p * Inverse3 (P.GetJpJp p)).mulVec (-(P.GetJpe p))), zero_add]
  intro acc p
  unfold CrossBlock
  cases hE : P.GetJcJp_pair i p with
  | none => simp
  | some E =>
    by_cases hd : (P.GetJpJp p).det = 0
    · simp [hd, Inverse3_of_det_eq_zero]
    · simp [hd]

theorem foldl_SetECw (n : Nat) (P : BAProblem DT) :
    (List.range n).foldl (fun Q i => Q.SetECw i (Q.EvaluateEcw_pose i)) P =
      { P with Ec_Cinv_w_ := (fun i =>
          if i < n then P.EvaluateEcw_pose i else P.Ec_Cinv_w_ i) } := by
  induction n with
  | zero => cases P; simp
  | succ n ih =>
    rw [List.range_succ, List.foldl_append, ih]
    simp only [List.foldl_cons, List.foldl_nil, SetECw]
    congr 1
    funext k
    by_cases hk : k = n
    · subst hk
      simp only [Function.update_same, Nat.lt_succ_self, if_true]
      rfl
    · have : (k < n + 1) = (k < n) := by
        apply propext; omega
      simp [Function.update_noteq hk, this]

theorem EvaluateEcEc_pair_eq (P : BAProblem DT) (i j : Nat) :
    (P.EvaluateEcEc_pair i j).2 =
      ∑ p in Finset.range P.PointNum,
        P.CrossBlock i p * Inverse3 (P.GetJpJp p) * (P.CrossBlock j p).transpose := by
  have hfold : (P.EvaluateEcEc_pair i j).2 =
      ((P.GetCommonPoints i j).map fun p =>
        P.CrossBlock i p * Inverse3 (P.GetJpJp p) * (P.CrossBlock j p).transpose).sum := by
    unfold EvaluateEcEc_pair
    by_cases he : (P.GetCommonPoints i j).isEmpty = true
    · have hnil : P.GetCommonPoints i j = [] := List.isEmpty_iff.mp he
      simp [hnil]
    · simp only [he, Bool.false_eq_true, if_false]
      rw [foldl_list_add _ (fun p =>
        P.CrossBlock i p * Inverse3 (P.GetJpJp p) * (P.CrossBlock j p).transpose), zero_add]
      intro acc p
      unfold CrossBlock
      cases hE1 : P.GetJcJp_pair i p with
      | none => simp
      | some E1 =>
        cases hE2 : P.GetJcJp_pair j p with
        | none => simp
        | some E2 =>
          by_cases hd : (P.GetJpJp p).det = 0
          · simp [hd, Inverse3_of_det_eq_zero]
          · simp [hd]
  rw [hfold, GetCommonPoints, sum_map_filter_range]
  refine Finset.sum_congr rfl fun p _ => ?_
  unfold CrossBlock GetJcJp_pair
  cases h1 : P.GetProjectionIndex i p <;> cases h2 : P.GetProjectionIndex j p <;> simp

theorem EvaluateSchurComplement_apply (P : BAProblem DT)
    (ia jb : Fin P.PoseNum × Fin 6) :
    P.EvaluateSchurComplement ia jb =
      ((if ia.1 = jb.1 then P.GetJcJc ia.1 else 0) -
        ∑ p : Fin P.PointNum,
          P.CrossBlock ia.1 p * Inverse3 (P.GetJpJp p) * (P.CrossBlock jb.1 p).transpose)
        ia.2 jb.2 := by
  have hsum := P.EvaluateEcEc_pair_eq ia.1 jb.1
  rw [Finset.sum_range] at hsum
  rw [← hsum]
  unfold EvaluateSchurComplement
  simp only [Matrix.of_apply]
  by_cases hflag : (P.EvaluateEcEc_pair ia.1 jb.1).1 = true
  · simp [hflag]
  · have hzero : (P.EvaluateEcEc_pair ia.1 jb.1).2 = 0 := by
      unfold EvaluateEcEc_pair at hflag ⊢
      by_cases he : (P.GetCommonPoints ia.1 jb.1).isEmpty = true
      · simp [he]
      · simp [he] at hflag
    simp [hflag, hzero]

/-- The reduced camera matrix is the Schur complement of the point block in
the full normal matrix. -/
theorem EvaluateSchurComplement_eq (P : BAProblem DT) :
    P.EvaluateSchurComplement =
      P.FullJcJc - P.FullJcJp * P.FullJpJpInverse * P.FullJcJp.transpose := by
  ext ia jb
  rw [EvaluateSchurComplement_apply, Matrix.sub_apply, Matrix.sub_apply, FullEcEc_apply]
  congr 1
  unfold FullJcJc
  simp only [Matrix.of_apply]
  split_ifs <;> rfl

theorem EvaluateEcw_eq (P : BAProblem DT) :
    P.EvaluateEcw = { P with Ec_Cinv_w_ := (fun i =>
      if i < P.PoseNum then P.EvaluateEcw_pose i else P.Ec_Cinv_w_ i) } := by
  rw [EvaluateEcw, foldl_SetECw]

theorem GetEcw_EvaluateEcw (P : BAProblem DT) (i : Nat) (hi : i < P.PoseNum) :
    P.EvaluateEcw.GetEcw i = P.EvaluateEcw_pose i := by
  rw [EvaluateEcw_eq]
  simp [GetEcw, hi]

theorem EvaluateEcw_pose_EvaluateEcw (P : BAProblem DT) (i : Nat) :
    P.EvaluateEcw.EvaluateEcw_pose i = P.EvaluateEcw_pose i := by
  rw [EvaluateEcw_eq]
  rfl

theorem PoseNum_EvaluateEcw (P : BAProblem DT) : P.EvaluateEcw.PoseNum = P.PoseNum := by
  rw [EvaluateEcw_eq]
  rfl

theorem reduced_rhs_eq (R : BAProblem DT)
    (hE : ∀ i, i < R.PoseNum → R.GetEcw i = R.EvaluateEcw_pose i) :
    (fun ia : Fin R.PoseNum × Fin 6 => R.GetJce ia.1 ia.2 + R.GetEcw ia.1 ia.2) =
      (fun ia : Fin R.PoseNum × Fin 6 => R.GetJce ia.1 ia.2) -
        (R.FullJcJp * R.FullJpJpInverse).mulVec
          (fun pc : Fin R.PointNum × Fin 3 => R.GetJpe pc.1 pc.2) := by
  funext ⟨i, a⟩
  simp only [Pi.sub_apply]
  rw [hE i i.2, EvaluateEcw_pose_eq, Finset.sum_range, sub_eq_add_neg]
  congr 1
  simp only [Matrix.mulVec, Matrix.dotProduct, Fintype.sum_prod_type, FullJcJp_mul_inverse_apply,
    Finset.sum_apply, Pi.neg_apply, mul_neg, Finset.sum_neg_distrib]

/-- The round trip for a problem whose `Ec_Cinv_w_` buffer is up to date. -/
theorem schur_round_trip_of_Ecw (R : BAProblem DT)
    (hE : ∀ i, i < R.PoseNum → R.GetEcw i = R.EvaluateEcw_pose i)
    (hJpJp : R.PointBlocksInvertible) (hS : R.ReducedMatrixInvertible) :
    ∃ dy, R.EvaluateDeltaPose = some dy ∧ R.SolvesReducedSystem dy ∧
      R.IsFullSolution dy (R.EvaluateDeltaPoint dy) := by
  obtain ⟨dy, hsolve, hdy⟩ := SolveLinearSystem_of_det_ne_zero R.EvaluateSchurComplement
    (fun ia => R.GetJce ia.1 ia.2 + R.GetEcw ia.1 ia.2) hS
  refine ⟨dy, hsolve, hdy, ?_, ?_⟩
  all_goals
    rw [reduced_rhs_eq R hE, EvaluateSchurComplement_eq] at hdy
    unfold ReducedMatrixInvertible at hS
    rw [EvaluateSchurComplement_eq] at hS
    rw [EvaluateDeltaPoint_eq]
  · exact schur_solution _ _ _ _ (FullJpJp_mul_inverse R hJpJp) _ _ dy hdy
  · intro x hx
    exact schur_solution_unique _ _ _ _ (FullJpJp_mul_inverse R hJpJp) hS _ _ dy hdy x hx

theorem GetJpJp_EvaluateEcw (P : BAProblem DT) (p : Nat) :
    P.EvaluateEcw.GetJpJp p = P.GetJpJp p := by
  rw [EvaluateEcw_eq]
  rfl

theorem det_EvaluateSchurComplement_EvaluateEcw (P : BAProblem DT) :
    P.EvaluateEcw.EvaluateSchurComplement.det = P.EvaluateSchurComplement.det := by
  rw [EvaluateEcw_eq]
  rfl

/-- C1: Schur elimination round trip, in exact arithmetic.  Let `R` be a problem
whose reduced right-hand side has been built by `EvaluateEcw`, whose point
blocks JpJp are all invertible and whose reduced camera matrix
(`EvaluateSchurComplement`) is invertible.  Then `EvaluateDeltaPose` returns a
pose delta `dy`, it solves the reduced system, and `dy` together with the point
deltas of `EvaluateDeltaPoint` is the solution of the full normal equations
built from JcJc, JpJp, JcJp, Jce and Jpe. -/
theorem schur_round_trip (P R : BAProblem DT) (hR : R = P.EvaluateEcw)
    (hJpJp : R.PointBlocksInvertible) (hS : R.ReducedMatrixInvertible) :
    ∃ dy, R.EvaluateDeltaPose = some dy ∧ R.SolvesReducedSystem dy ∧
      R.IsFullSolution dy (R.EvaluateDeltaPoint dy) := by
  subst hR
  refine schur_round_trip_of_Ecw _ ?_ hJpJp hS
  intro i hi
  rw [PoseNum_EvaluateEcw] at hi
  rw [GetEcw_EvaluateEcw P i hi, EvaluateEcw_pose_EvaluateEcw]

theorem EvaluateSchurComplement_isSymm (R : BAProblem DT)
    (hB : ∀ i, (R.GetJcJc i).IsSymm) (hC : ∀ p, (R.GetJpJp p).IsSymm) :
    R.EvaluateSchurComplement.IsSymm := by
  ext ia jb
  rw [Matrix.transpose_apply, EvaluateSchurComplement_apply, EvaluateSchurComplement_apply,
    ← schur_block_transpose R hB hC ia.1 jb.1, Matrix.transpose_apply]

/-- C4: in exact arithmetic the reduced camera matrix built by
`EvaluateSchurComplement` from the blocks of the accumulation pass is symmetric:
for every pair of poses `i`, `j` the block S(i,j) is the transpose of the block
S(j,i), and every diagonal block S(i,i) is a symmetric matrix.  The same holds
when a damping term has been put on the diagonals of the pose and point blocks
before the elimination. -/
theorem schur_complement_symmetric (P : BAProblem DT) (pose_diagonal point_diagonal : Nat → DT) :
    BlockSymmetric P.AccumulationPass.EvaluateSchurComplement ∧
    BlockSymmetric ((P.AccumulationPass.SetPoseDiagonal pose_diagonal).SetPointDiagonal
      point_diagonal).EvaluateSchurComplement :=
  ⟨blockSymmetric_of_isSymm _
      (EvaluateSchurComplement_isSymm _ (AccumulationPass_JcJc_isSymm P)
        (AccumulationPass_JpJp_isSymm P)),
    blockSymmetric_of_isSymm _
      (EvaluateSchurComplement_isSymm _
        (SetDiagonal_JcJc_isSymm _ _ _ (AccumulationPass_JcJc_isSymm P))
        (SetDiagonal_JpJp_isSymm _ _ _ (AccumulationPass_JpJp_isSymm P)))⟩

end SchurFacts


end BAProblem

theorem tinyProblem_schur : tinyProblem.EvaluateSchurComplement = 1 := by
  ext ⟨i, a⟩ ⟨j, b⟩
  have hij : i = j :=
    Fin.ext ((Nat.lt_one_iff.mp i.2).trans (Nat.lt_one_iff.mp j.2).symm)
  subst hij
  rw [BAProblem.EvaluateSchurComplement_apply]
  have hsum : (∑ p : Fin tinyProblem.PointNum,
      tinyProblem.CrossBlock i p * BAProblem.Inverse3 (tinyProblem.GetJpJp p) *
        (tinyProblem.CrossBlock i p).transpose) = tinyCross * tinyCross.transpose := by
    have hone : ∀ p : Fin tinyProblem.PointNum,
        tinyProblem.CrossBlock i p * BAProblem.Inverse3 (tinyProblem.GetJpJp p) *
          (tinyProblem.CrossBlock i p).transpose = tinyCross * tinyCross.transpose := by
      intro p
      have hi : i.val = 0 := Nat.lt_one_iff.mp i.2
      have hp : p.val = 0 := Nat.lt_one_iff.mp p.2
      have hC : tinyProblem.GetJpJp p = 1 := rfl
      have hE : tinyProblem.CrossBlock i p = tinyCross := by
        simp [BAProblem.CrossBlock, BAProblem.GetJcJp_pair, BAProblem.GetProjectionIndex,
          tinyProblem, hi, hp, BAProblem.GetJcJp]
      rw [hC, hE, BAProblem.Inverse3_eq_inv, inv_one, Matrix.mul_one]
    rw [Finset.sum_congr rfl fun p _ => hone p]
    have hcard : Fintype.card (Fin tinyProblem.PointNum) = 1 := by
      rw [Fintype.card_fin]; rfl
    simp [hcard]
  have hB : tinyProblem.GetJcJc i = 1 + tinyCross * tinyCross.transpose := rfl
  rw [hsum, hB]
  simp [Matrix.one_apply]

/-! ## Update loop -/

namespace UpdateLoop

theorem Cost_eq_of_blocks {DT C D : Type} (L : UpdateLoop DT C D) (P Q : BAProblem DT)
    (h1 : Q.pose_block_ = P.pose_block_) (h2 : Q.point_block_ = P.point_block_)
    (h3 : Q.intrinsic_block_ = P.intrinsic_block_) : L.Cost Q = L.Cost P := by
  unfold Cost
  rw [h1, h2, h3]

variable {DT C D : Type} [Preorder C] [DecidableRel (fun a b : C => a < b)]

theorem Step_accepted_or_rejected (L : UpdateLoop DT C D) (P : BAProblem DT) (damping : D) :
    ((L.Step P damping).1.step_accept_ = true ∧ L.Cost (L.Step P damping).1 < L.Cost P) ∨
    ((L.Step P damping).1.step_accept_ = false ∧
      (L.Step P damping).1.pose_block_ = P.pose_block_ ∧
      (L.Step P damping).1.point_block_ = P.point_block_ ∧
      (L.Step P damping).1.intrinsic_block_ = P.intrinsic_block_) := by
  unfold Step
  split
  · exact Or.inr ⟨rfl, rfl, rfl, rfl⟩
  · split
    · next hlt => exact Or.inl ⟨rfl, hlt⟩
    · exact Or.inr ⟨rfl, rfl, rfl, rfl⟩

/-- C7: over every run of the update loop, each accepted step ends with a total
squared residual cost strictly below the cost before the step, and a rejected
step leaves the pose, point and intrinsic blocks equal to their values before
the step; hence the costs reached by the accepted steps form a strictly
decreasing sequence below the initial cost, and the problem `Solve` ends with
has a cost no greater than the initial one. -/
theorem solve_step_acceptance (L : UpdateLoop DT C D) (budget : Nat) (P : BAProblem DT)
    (damping : D) :
    (∀ r ∈ L.SolveTrace budget P damping, r.accepted = true →
      L.Cost r.after < L.Cost r.before) ∧
    (∀ r ∈ L.SolveTrace budget P damping, r.accepted = false →
      r.after.pose_block_ = r.before.pose_block_ ∧
      r.after.point_block_ = r.before.point_block_ ∧
      r.after.intrinsic_block_ = r.before.intrinsic_block_) ∧
    List.Chain (fun a b => b < a) (L.Cost P)
      (L.AcceptedCosts (L.SolveTrace budget P damping)) ∧
    L.Cost (L.Solve budget P damping) ≤ L.Cost P := by
  induction budget generalizing P damping with
  | zero =>
    refine ⟨?_, ?_, ?_, ?_⟩
    · intro r hr; simp [SolveTrace] at hr
    · intro r hr; simp [SolveTrace] at hr
    · simp [SolveTrace, AcceptedCosts]
    · simp [Solve]
  | succ budget ih =>
    by_cases hconv : L.Converged P = true
    · refine ⟨?_, ?_, ?_, ?_⟩
      · intro r hr; simp [SolveTrace, hconv] at hr
      · intro r hr; simp [SolveTrace, hconv] at hr
      · simp [SolveTrace, hconv, AcceptedCosts]
      · simp [Solve, hconv]
    · obtain ⟨ih1, ih2, ih3, ih4⟩ := ih (L.Step P damping).1 (L.Step P damping).2
      have htrace : L.SolveTrace (budget + 1) P damping =
          ⟨P, (L.Step P damping).1, (L.Step P damping).1.step_accept_⟩ ::
            L.SolveTrace budget (L.Step P damping).1 (L.Step P damping).2 := by
        simp [SolveTrace, hconv]
      have hsolve : L.Solve (budget + 1) P damping =
          L.Solve budget (L.Step P damping).1 (L.Step P damping).2 := by
        simp [Solve, hconv]
      rw [htrace, hsolve]
      rcases L.Step_accepted_or_rejected P damping with ⟨hacc, hlt⟩ | ⟨hrej, hb1, hb2, hb3⟩
      · refine ⟨?_, ?_, ?_, ?_⟩
        · intro r hr hr'
          rcases List.mem_cons.mp hr with rfl | hr
          · exact hlt
          · exact ih1 r hr hr'
        · intro r hr hr'
          rcases List.mem_cons.mp hr with rfl | hr
          · rw [hacc] at hr'; exact absurd hr' (by simp)
          · exact ih2 r hr hr'
        · have : L.AcceptedCosts
              (⟨P, (L.Step P damping).1, (L.Step P damping).1.step_accept_⟩ ::
                L.SolveTrace budget (L.Step P damping).1 (L.Step P damping).2) =
              L.Cost (L.Step P damping).1 ::
                L.AcceptedCosts (L.SolveTrace budget (L.Step P damping).1 (L.Step P damping).2) := by
            simp [AcceptedCosts, hacc]
          rw [this]
          exact List.Chain.cons hlt ih3
        · exact le_trans ih4 (le_of_lt hlt)
      · have hcost : L.Cost (L.Step P damping).1 = L.Cost P :=
          L.Cost_eq_of_blocks P _ hb1 hb2 hb3
        refine ⟨?_, ?_, ?_, ?_⟩
        · intro r hr hr'
          rcases List.mem_cons.mp hr with rfl | hr
          · rw [hrej] at hr'; exact absurd hr' (by simp)
          · exact ih1 r hr hr'
        · intro r hr hr'
          rcases List.mem_cons.mp hr with rfl | hr
          · exact ⟨hb1, hb2, hb3⟩
          · exact ih2 r hr hr'
        · have : L.AcceptedCosts
              (⟨P, (L.Step P damping).1, (L.Step P damping).1.step_accept_⟩ ::
                L.SolveTrace budget (L.Step P damping).1 (L.Step P damping).2) =
              L.AcceptedCosts (L.SolveTrace budget (L.Step P damping).1 (L.Step P damping).2) := by
            simp [AcceptedCosts, hrej]
          rw [this, ← hcost]
          exact ih3
        · rw [← hcost]
          exact ih4

end UpdateLoop

theorem demoLoop_first_step :
    (demoLoop.Step demoProblem 1).1.step_accept_ = true := by
  simp [UpdateLoop.Step, demoLoop, UpdateLoop.Cost, demoProblem]

theorem demoLoop_second_step :
    (demoLoop.Step (demoLoop.Step demoProblem 1).1 (demoLoop.Step demoProblem 1).2).1.step_accept_
      = false := by
  simp [UpdateLoop.Step, demoLoop, UpdateLoop.Cost, demoProblem]
  norm_num

/-- Witness of C7: the run of `demoLoop` from the two-pose problem with a
budget of two steps has an accepted first step, which lowers the cost, and a
rejected second step, which leaves the three parameter blocks as they were. -/
theorem solve_step_acceptance_witness :
    ∃ r1 r2, r1 ∈ demoLoop.SolveTrace 2 demoProblem 1 ∧ r1.accepted = true ∧
      demoLoop.Cost r1.after < demoLoop.Cost r1.before ∧
      r2 ∈ demoLoop.SolveTrace 2 demoProblem 1 ∧ r2.accepted = false ∧
      r2.after.pose_block_ = r2.before.pose_block_ ∧
      r2.after.point_block_ = r2.before.point_block_ ∧
      r2.after.intrinsic_block_ = r2.before.intrinsic_block_ := by
  have htrace : demoLoop.SolveTrace 2 demoProblem 1 =
      [⟨demoProblem, (demoLoop.Step demoProblem 1).1, true⟩,
       ⟨(demoLoop.Step demoProblem 1).1,
        (demoLoop.Step (demoLoop.Step demoProblem 1).1 (demoLoop.Step demoProblem 1).2).1,
        false⟩] := by
    have hc : ∀ P, demoLoop.Converged P = false := fun _ => rfl
    simp only [UpdateLoop.SolveTrace, hc, Bool.false_eq_true, if_false, demoLoop_first_step,
      demoLoop_second_step]
  have hmem1 : (⟨demoProblem, (demoLoop.Step demoProblem 1).1, true⟩ : StepRecord ℚ) ∈
      demoLoop.SolveTrace 2 demoProblem 1 := by
    rw [htrace]; exact List.mem_cons_self _ _
  have hmem2 : (⟨(demoLoop.Step demoProblem 1).1,
      (demoLoop.Step (demoLoop.Step demoProblem 1).1 (demoLoop.Step demoProblem 1).2).1,
      false⟩ : StepRecord ℚ) ∈ demoLoop.SolveTrace 2 demoProblem 1 := by
    rw [htrace]; exact List.mem_cons_of_mem _ (List.mem_cons_self _ _)
  obtain ⟨hacc, hrej, _, _⟩ := UpdateLoop.solve_step_acceptance demoLoop 2 demoProblem 1
  exact ⟨_, _, hmem1, rfl, hacc _ hmem1 rfl, hmem2, rfl, hrej _ hmem2 rfl⟩

/-- Witness of C1: in the one-pose problem, after `EvaluateEcw`, the point block
is the identity and the reduced camera matrix is the identity, so the round
trip applies. -/
theorem schur_round_trip_witness :
    tinyProblem.EvaluateEcw.PointBlocksInvertible ∧
    tinyProblem.EvaluateEcw.ReducedMatrixInvertible ∧
    ∃ dy, tinyProblem.EvaluateEcw.EvaluateDeltaPose = some dy ∧
      tinyProblem.EvaluateEcw.SolvesReducedSystem dy ∧
      tinyProblem.EvaluateEcw.IsFullSolution dy (tinyProblem.EvaluateEcw.EvaluateDeltaPoint dy) := by
  have h1 : tinyProblem.EvaluateEcw.PointBlocksInvertible := by
    intro p _
    rw [BAProblem.GetJpJp_EvaluateEcw]
    have hC : tinyProblem.GetJpJp p = 1 := rfl
    rw [hC, Matrix.det_one]
    exact one_ne_zero
  have h2 : tinyProblem.EvaluateEcw.ReducedMatrixInvertible := by
    unfold BAProblem.ReducedMatrixInvertible
    rw [BAProblem.det_EvaluateSchurComplement_EvaluateEcw, tinyProblem_schur, Matrix.det_one]
    exact one_ne_zero
  exact ⟨h1, h2, BAProblem.schur_round_trip tinyProblem tinyProblem.EvaluateEcw rfl h1 h2⟩

/-- Witness of C3: projection 0 of the two-pose problem. -/
theorem accumulation_pass_blocks_witness :
    0 < demoProblem.ProjectionNum ∧
    demoProblem.AccumulationPass.GetJcJp 0 =
      (demoProblem.GetPoseJacobian 0).transpose * demoProblem.GetPointJacobian 0 :=
  ⟨by decide, (BAProblem.accumulation_pass_blocks demoProblem).2.2 0 (by decide)⟩

/-- Witness of C5: in the two-pose problem both poses are in group 0, so they
obtain the same intrinsics, and after `SetIntrinsic 0 v` both obtain `v`. -/
theorem pose_intrinsic_of_group_witness :
    demoProblem.GetPoseGroup 0 = some 0 ∧ demoProblem.GetPoseGroup 1 = some 0 ∧
    demoProblem.GetPoseIntrinsic 0 = demoProblem.GetIntrinsic 0 ∧
    demoProblem.GetPoseIntrinsic 0 = demoProblem.GetPoseIntrinsic 1 ∧
    ∃ Q, demoProblem.SetIntrinsic 0 (fun _ => 5) = some Q ∧
      Q.GetPoseIntrinsic 0 = some (fun _ => 5) ∧ Q.GetPoseIntrinsic 1 = some (fun _ => 5) := by
  have h := BAProblem.pose_intrinsic_of_group demoProblem
  have h0 : demoProblem.GetPoseGroup 0 = some 0 := rfl
  have h1 : demoProblem.GetPoseGroup 1 = some 0 := rfl
  have hg : 0 < demoProblem.GroupNum := by decide
  obtain ⟨hs, hf⟩ := h.2.2.2 0 (fun _ => 5)
  obtain ⟨Q, hQ⟩ := Option.isSome_iff_exists.mp (hs hg)
  exact ⟨h0, h1, h.1 0 0 h0, h.2.2.1 0 1 0 h0 h1, Q, hQ, (hf Q hQ 0 h0).2, (hf Q hQ 1 h1).2⟩

/-- Witness of C9: in the two-pose problem every setter succeeds at a valid
index and leaves the counts and the other blocks as they were. -/
theorem setters_write_own_block_witness :
    (∃ Q, demoProblem.SetPose 1 (fun _ => 1) (fun _ => 2) = some Q ∧
      BAProblem.SameCounts demoProblem Q ∧ ∀ j, Q.GetPoint j = demoProblem.GetPoint j) ∧
    (∃ Q, demoProblem.SetPoint 0 (fun _ => 3) = some Q ∧
      BAProblem.SameCounts demoProblem Q ∧ ∀ j, Q.GetPose j = demoProblem.GetPose j) ∧
    (∃ Q, demoProblem.SetColor 0 (fun _ => 4) = some Q ∧
      BAProblem.SameCounts demoProblem Q ∧ ∀ j, Q.GetPose j = demoProblem.GetPose j) ∧
    (∃ Q, demoProblem.SetIntrinsic 0 (fun _ => 5) = some Q ∧
      BAProblem.SameCounts demoProblem Q ∧ ∀ j, Q.GetPose j = demoProblem.GetPose j) := by
  have hpose : 1 < demoProblem.PoseNum := by decide
  have hpoint : 0 < demoProblem.PointNum := by decide
  have hgroup : 0 < demoProblem.GroupNum := by decide
  obtain ⟨hs1, hf1⟩ :=
    (BAProblem.setters_write_own_block demoProblem 1).1 (fun _ => 1) (fun _ => 2)
  obtain ⟨hs2, hf2⟩ := (BAProblem.setters_write_own_block demoProblem 0).2.1 (fun _ => 3)
  obtain ⟨hs3, hf3⟩ := (BAProblem.setters_write_own_block demoProblem 0).2.2.1 (fun _ => 4)
  obtain ⟨hs4, hf4⟩ := (BAProblem.setters_write_own_block demoProblem 0).2.2.2 (fun _ => 5)
  obtain ⟨Q1, hQ1⟩ := Option.isSome_iff_exists.mp (hs1 hpose)
  obtain ⟨Q2, hQ2⟩ := Option.isSome_iff_exists.mp (hs2 hpoint)
  obtain ⟨Q3, hQ3⟩ := Option.isSome_iff_exists.mp (hs3 hpoint)
  obtain ⟨Q4, hQ4⟩ := Option.isSome_iff_exists.mp (hs4 hgroup)
  exact ⟨⟨Q1, hQ1, (hf1 Q1 hQ1).1, (hf1 Q1 hQ1).2.1⟩, ⟨Q2, hQ2, (hf2 Q2 hQ2).1, (hf2 Q2 hQ2).2.1⟩,
    ⟨Q3, hQ3, (hf3 Q3 hQ3).1, (hf3 Q3 hQ3).2.1⟩, ⟨Q4, hQ4, (hf4 Q4 hQ4).1, (hf4 Q4 hQ4).2.1⟩⟩

/-- Witness of C6 as amended: the argument 2 stores ITERATIVE, one of the four
strategies. -/
theorem set_linear_solve_type_in_range_witness :
    (demoProblem.SetLinearSolveType 2).linear_solver_type_ = SPARSE ∨
    (demoProblem.SetLinearSolveType 2).linear_solver_type_ = DENSE ∨
    (demoProblem.SetLinearSolveType 2).linear_solver_type_ = ITERATIVE ∨
    (demoProblem.SetLinearSolveType 2).linear_solver_type_ = ADAPTIVE :=
  BAProblem.set_linear_solve_type_in_range demoProblem 2 (by decide) (by decide)

/-- Counterexample to C6 as stated: after `SetLinearSolveType(4)` the stored
strategy is none of SPARSE, DENSE, ITERATIVE, ADAPTIVE. -/
theorem set_linear_solve_type_unchecked :
    ¬ ((demoProblem.SetLinearSolveType 4).linear_solver_type_ = SPARSE ∨
       (demoProblem.SetLinearSolveType 4).linear_solver_type_ = DENSE ∨
       (demoProblem.SetLinearSolveType 4).linear_solver_type_ = ITERATIVE ∨
       (demoProblem.SetLinearSolveType 4).linear_solver_type_ = ADAPTIVE) := by
  decide

end STBA
